/-
  Verification of the request-scoped security utilities of the
  Anamar-Haus/Adoption-Choice-40th-Anniversary repository.

  The development shallowly embeds the following source modules:
    * src/src/lib/security/rate-limit.ts  (InMemoryRateLimiter, getClientIdentifier)
    * src/src/lib/security/ssrf.ts        (validateUrl, isUrlSafe)
    * src/src/lib/logger.ts               (redactSecrets, Logger.debug)
    * the error/response envelope module  (createErrorResponse)

  JavaScript numbers holding timestamps are modelled as `Int`; JS strings as
  Lean `String` (lists of characters); the JS `Map` of the rate limiter as an
  association list preserving insertion order; thrown errors as `Except`.
-/
import Mathlib

set_option maxHeartbeats 1000000

/-! # Rate limiter (src/src/lib/security/rate-limit.ts) -/

/-- Result of a rate limit check, mirroring `RateLimitResult`. -/
structure RateLimitResult where
  allowed : Bool
  remaining : Int
  reset : Int
  limit : Nat
  deriving Repr, DecidableEq

/-- Configuration of an `InMemoryRateLimiter`: constructor arguments
`maxRequests` and `windowMs`. -/
structure RLConfig where
  maxRequests : Nat
  windowMs : Int
  deriving Repr, DecidableEq

/-- The limiter's `requests` map: a JS `Map<string, number[]>`, modelled as an
insertion-ordered association list. -/
abbrev RLState := List (String × List Int)

/-- `Map.get`: first binding of the key, if any. -/
def lookupTs : RLState → String → Option (List Int)
  | [], _ => none
  | (k, v) :: rest, key => if k = key then some v else lookupTs rest key

/-- `Map.set`: replace the value of an existing key in place, otherwise append
the binding at the end (JS `Map` insertion order). -/
def setTs : RLState → String → List Int → RLState
  | [], key, v => [(key, v)]
  | (k, w) :: rest, key, v =>
    if k = key then (k, v) :: rest else (k, w) :: setTs rest key v

/-- `Map.delete`: remove the binding of the key. -/
def deleteTs : RLState → String → RLState
  | [], _ => []
  | (k, w) :: rest, key => if k = key then rest else (k, w) :: deleteTs rest key

namespace RateLimit

/-- `InMemoryRateLimiter.check`, with the call time `now` (`Date.now()`)
passed explicitly.  Returns the `RateLimitResult` and the state of the
`requests` map after the call. -/
def check (cfg : RLConfig) (st : RLState) (identifier : String) (now : Int) :
    RateLimitResult × RLState :=
  let windowStart := now - cfg.windowMs
  let timestamps := (lookupTs st identifier).getD []
  let validTimestamps := timestamps.filter (fun ts => decide (windowStart < ts))
  let allowed := decide (validTimestamps.length < cfg.maxRequests)
  let newValid := if allowed then validTimestamps ++ [now] else validTimestamps
  let st' := if allowed then setTs st identifier newValid else st
  ({ allowed := allowed
     remaining := max 0 ((cfg.maxRequests : Int) - (newValid.length : Int))
     reset := windowStart + cfg.windowMs
     limit := cfg.maxRequests }, st')

/-- `InMemoryRateLimiter.reset`. -/
def reset (st : RLState) (identifier : String) : RLState :=
  deleteTs st identifier

/-- `InMemoryRateLimiter.cleanup`, with the sweep time `now` passed
explicitly: the loop over `requests.entries()` re-filters every entry and
deletes a key whose filtered list is empty. -/
def cleanup (cfg : RLConfig) (st : RLState) (now : Int) : RLState :=
  match st with
  | [] => []
  | (k, ts) :: rest =>
    let valid := ts.filter (fun t => decide (now - cfg.windowMs < t))
    if valid.length = 0 then cleanup cfg rest now
    else (k, valid) :: cleanup cfg rest now

/-- Run a sequence of `check` calls for one identifier at the given times,
collecting the results. -/
def runChecks (cfg : RLConfig) (id : String) : List Int → RLState →
    List RateLimitResult × RLState
  | [], st => ([], st)
  | t :: ts, st =>
    let r := check cfg st id t
    let rest := runChecks cfg id ts r.2
    (r.1 :: rest.1, rest.2)

/-- One operation on an `InMemoryRateLimiter` (used to state the storage
invariant over arbitrary interleavings). -/
inductive Op where
  | check (id : String) (now : Int)
  | reset (id : String)
  | cleanup (now : Int)
  deriving Repr, DecidableEq

/-- Apply one operation to the map state. -/
def applyOp (cfg : RLConfig) (st : RLState) : Op → RLState
  | .check id now => (check cfg st id now).2
  | .reset id => reset st id
  | .cleanup now => cleanup cfg st now

/-- Apply a sequence of operations. -/
def applyOps (cfg : RLConfig) (st : RLState) : List Op → RLState
  | [] => st
  | op :: ops => applyOps cfg (applyOp cfg st op) ops

end RateLimit

namespace RateLimit

theorem runChecks_length (cfg : RLConfig) (id : String) :
    ∀ (ts : List Int) (st : RLState), (runChecks cfg id ts st).1.length = ts.length := by
  intro ts
  induction ts with
  | nil => intro st; rfl
  | cons t ts ih => intro st; simp [runChecks, ih]

theorem check_keeps_all (w : Int) (l : List Int) (t : Int)
    (h : ∀ a ∈ l, t - w < a) :
    l.filter (fun ts => decide (t - w < ts)) = l := by
  apply List.filter_eq_self.mpr
  intro a ha
  exact decide_eq_true (h a ha)

/-- Core induction for the window-exhaustion scenario: starting from a state
that binds `id` to `l` (all of whose timestamps survive every later filter),
the run of `check` calls behaves as a pure counter saturating at
`maxRequests`. -/
theorem runChecks_spec (N : Nat) (w : Int) (id : String) :
    ∀ (ts l : List Int), l.length ≤ N →
    (∀ a ∈ l ++ ts, ∀ b ∈ ts, b - w < a) →
    (∃ l', (runChecks ⟨N, w⟩ id ts [(id, l)]).2 = [(id, l')]) ∧
    (∀ i r, (runChecks ⟨N, w⟩ id ts [(id, l)]).1.get? i = some r →
      r.allowed = decide (l.length + i < N) ∧
      r.remaining = if l.length + i < N then (N : Int) - ((l.length + i + 1 : Nat) : Int) else 0) := by
  intro ts
  induction ts with
  | nil =>
    intro l hlen hwin
    exact ⟨⟨l, rfl⟩, fun i r hr => by simp [runChecks] at hr⟩
  | cons t ts ih =>
    intro l hlen hwin
    have hkeep : l.filter (fun x => decide (t - w < x)) = l := by
      apply check_keeps_all
      intro a ha
      exact hwin a (List.mem_append_left _ ha) t (List.mem_cons_self t ts)
    by_cases hc : l.length < N
    · -- allowed step: the timestamp is appended
      have hstep : check ⟨N, w⟩ [(id, l)] id t =
          ({ allowed := true
             remaining := max 0 ((N : Int) - ((l.length + 1 : Nat) : Int))
             reset := t - w + w
             limit := N }, [(id, l ++ [t])]) := by
        simp [check, lookupTs, setTs, hkeep, hc]
      have hwin' : ∀ a ∈ (l ++ [t]) ++ ts, ∀ b ∈ ts, b - w < a := by
        intro a ha b hb
        rcases List.mem_append.mp ha with h1 | h2
        · rcases List.mem_append.mp h1 with h3 | h4
          · exact hwin a (List.mem_append_left _ h3) b (List.mem_cons_of_mem _ hb)
          · have : a = t := by simpa using h4
            subst this
            exact hwin a (List.mem_append_right _ (List.mem_cons_self _ _)) b
              (List.mem_cons_of_mem _ hb)
        · exact hwin a (List.mem_append_right _ (List.mem_cons_of_mem _ h2)) b
            (List.mem_cons_of_mem _ hb)
      have hlen' : (l ++ [t]).length ≤ N := by
        simp only [List.length_append, List.length_singleton]
        omega
      obtain ⟨⟨l', hst⟩, hres⟩ := ih (l ++ [t]) hlen' hwin'
      constructor
      · exact ⟨l', by simp [runChecks, hstep, hst]⟩
      · intro i r hr
        match i with
        | 0 =>
          simp [runChecks, hstep] at hr
          subst hr
          refine ⟨by simpa using hc, ?_⟩
          have h0 : (0 : Int) ≤ (N : Int) - ((l.length + 1 : Nat) : Int) := by
            push_cast
            omega
          show max 0 ((N : Int) - ((l.length + 1 : Nat) : Int)) = _
          rw [if_pos (by omega : l.length + 0 < N), max_eq_right h0]
        | i + 1 =>
          have hr' : (runChecks ⟨N, w⟩ id ts [(id, l ++ [t])]).1.get? i = some r := by
            simpa [runChecks, hstep] using hr
          obtain ⟨ha, hrem⟩ := hres i r hr'
          have heq : (l ++ [t]).length + i = l.length + (i + 1) := by
            simp only [List.length_append, List.length_singleton]
            omega
          exact ⟨by rw [ha, heq], by rw [hrem, heq]⟩
    · -- disallowed step: the state is untouched
      have hNeq : l.length = N := by omega
      have hstep : check ⟨N, w⟩ [(id, l)] id t =
          ({ allowed := false
             remaining := max 0 ((N : Int) - ((l.length : Nat) : Int))
             reset := t - w + w
             limit := N }, [(id, l)]) := by
        simp [check, lookupTs, hkeep, hc]
      have hwin' : ∀ a ∈ l ++ ts, ∀ b ∈ ts, b - w < a := by
        intro a ha b hb
        rcases List.mem_append.mp ha with h1 | h2
        · exact hwin a (List.mem_append_left _ h1) b (List.mem_cons_of_mem _ hb)
        · exact hwin a (List.mem_append_right _ (List.mem_cons_of_mem _ h2)) b
            (List.mem_cons_of_mem _ hb)
      obtain ⟨⟨l', hst⟩, hres⟩ := ih l hlen hwin'
      constructor
      · exact ⟨l', by simp [runChecks, hstep, hst]⟩
      · intro i r hr
        match i with
        | 0 =>
          simp [runChecks, hstep] at hr
          subst hr
          refine ⟨by simp [hc], ?_⟩
          show max 0 ((N : Int) - ((l.length : Nat) : Int)) = _
          rw [if_neg (by omega : ¬ l.length + 0 < N)]
          rw [hNeq]
          omega
        | i + 1 =>
          have hr' : (runChecks ⟨N, w⟩ id ts [(id, l)]).1.get? i = some r := by
            simpa [runChecks, hstep] using hr
          obtain ⟨ha, hrem⟩ := hres i r hr'
          have hge : ¬ (l.length + (i + 1) < N) := by omega
          have hge' : ¬ (l.length + i < N) := by omega
          refine ⟨by rw [ha]; simp [hge, hge'], ?_⟩
          rw [hrem, if_neg hge', if_neg hge]

end RateLimit

/-- C1: For an `InMemoryRateLimiter` with `maxRequests = N` (`N ≥ 1`),
starting from an empty map, with all `N + 1` call times within one window
length of each other, the first `N` `check` calls return `allowed = true` with
`remaining` descending `N-1 .. 0`, the `(N+1)`-th returns `allowed = false`
with `remaining = 0`, and after `reset` the next `check` is allowed again. -/
theorem rateLimiter_window_exhaustion
    (N : Nat) (w : Int) (id : String) (times : List Int) (tReset : Int)
    (hN : 0 < N)
    (hlen : times.length = N + 1)
    (hwin : ∀ a ∈ times, ∀ b ∈ times, b - w < a) :
    (∀ i r, i < N → (RateLimit.runChecks ⟨N, w⟩ id times []).1.get? i = some r →
        r.allowed = true ∧ r.remaining = (N : Int) - ((i : Int) + 1)) ∧
    (∀ r, (RateLimit.runChecks ⟨N, w⟩ id times []).1.get? N = some r →
        r.allowed = false ∧ r.remaining = 0) ∧
    (RateLimit.runChecks ⟨N, w⟩ id times []).1.length = N + 1 ∧
    (RateLimit.check ⟨N, w⟩
        (RateLimit.reset (RateLimit.runChecks ⟨N, w⟩ id times []).2 id) id tReset).1.allowed
      = true := by
  obtain ⟨M, rfl⟩ : ∃ M, N = M + 1 := ⟨N - 1, by omega⟩
  obtain ⟨t0, rest, rfl⟩ : ∃ t0 rest, times = t0 :: rest := by
    cases times with
    | nil => simp at hlen
    | cons a l => exact ⟨a, l, rfl⟩
  have hst2 : (RateLimit.check ⟨M + 1, w⟩ [] id t0).2 = [(id, [t0])] := by
    simp [RateLimit.check, lookupTs, setTs]
  have hall0 : (RateLimit.check ⟨M + 1, w⟩ [] id t0).1.allowed = true := by
    simp [RateLimit.check, lookupTs]
  have hrem0 : (RateLimit.check ⟨M + 1, w⟩ [] id t0).1.remaining
      = ((M + 1 : Nat) : Int) - (((0 : Nat) : Int) + 1) := by
    simp [RateLimit.check, lookupTs]
  have hwin' : ∀ a ∈ [t0] ++ rest, ∀ b ∈ rest, b - w < a := by
    intro a ha b hb
    rcases List.mem_append.mp ha with h1 | h2
    · have : a = t0 := by simpa using h1
      subst this
      exact hwin a (List.mem_cons_self _ _) b (List.mem_cons_of_mem _ hb)
    · exact hwin a (List.mem_cons_of_mem _ h2) b (List.mem_cons_of_mem _ hb)
  have hlen1 : ([t0] : List Int).length ≤ M + 1 := by simp
  obtain ⟨⟨l', hst⟩, hres⟩ := RateLimit.runChecks_spec (M + 1) w id rest [t0] hlen1 hwin'
  have hout1 : (RateLimit.runChecks ⟨M + 1, w⟩ id (t0 :: rest) []).1
      = (RateLimit.check ⟨M + 1, w⟩ [] id t0).1
        :: (RateLimit.runChecks ⟨M + 1, w⟩ id rest [(id, [t0])]).1 := by
    simp [RateLimit.runChecks, hst2]
  have hout2 : (RateLimit.runChecks ⟨M + 1, w⟩ id (t0 :: rest) []).2
      = (RateLimit.runChecks ⟨M + 1, w⟩ id rest [(id, [t0])]).2 := by
    simp [RateLimit.runChecks, hst2]
  refine ⟨?_, ?_, ?_, ?_⟩
  · intro i r hi hr
    rw [hout1] at hr
    match i with
    | 0 =>
      simp only [List.get?_cons_zero, Option.some.injEq] at hr
      subst hr
      exact ⟨hall0, by rw [hrem0]⟩
    | i + 1 =>
      simp only [List.get?_cons_succ] at hr
      obtain ⟨ha, hrem⟩ := hres i r hr
      have hlt : ([t0] : List Int).length + i < M + 1 := by
        simp only [List.length_singleton]
        omega
      refine ⟨by rw [ha]; simp only [decide_eq_true_eq, List.length_singleton]; omega, ?_⟩
      rw [hrem, if_pos hlt]
      simp only [List.length_singleton]
      push_cast
      ring
  · intro r hr
    rw [hout1] at hr
    simp only [List.get?_cons_succ] at hr
    obtain ⟨ha, hrem⟩ := hres M r hr
    have hge : ¬ (([t0] : List Int).length + M < M + 1) := by
      simp only [List.length_singleton]
      omega
    exact ⟨by rw [ha]; simp only [decide_eq_false_iff_not, List.length_singleton]; omega, by rw [hrem, if_neg hge]⟩
  · rw [RateLimit.runChecks_length]
    simpa using hlen
  · rw [hout2, hst]
    simp [RateLimit.reset, deleteTs, RateLimit.check, lookupTs]

/-- Witness for C1 at `N = 2`, `w = 10`, times `[0, 1, 2]`. -/
theorem rateLimiter_window_exhaustion_witness :
    (∀ i r, i < 2 → (RateLimit.runChecks ⟨2, 10⟩ "u1" [0, 1, 2] []).1.get? i = some r →
        r.allowed = true ∧ r.remaining = (2 : Int) - ((i : Int) + 1)) ∧
    (∀ r, (RateLimit.runChecks ⟨2, 10⟩ "u1" [0, 1, 2] []).1.get? 2 = some r →
        r.allowed = false ∧ r.remaining = 0) ∧
    (RateLimit.runChecks ⟨2, 10⟩ "u1" [0, 1, 2] []).1.length = 2 + 1 ∧
    (RateLimit.check ⟨2, 10⟩
        (RateLimit.reset (RateLimit.runChecks ⟨2, 10⟩ "u1" [0, 1, 2] []).2 "u1") "u1" 99).1.allowed
      = true :=
  rateLimiter_window_exhaustion 2 10 "u1" [0, 1, 2] 99 (by decide) (by decide)
    (by intro a ha b hb; fin_cases ha <;> fin_cases hb <;> decide)

/-- C5: when `check` returns `allowed = false`, the `requests` map is exactly
what it was before the call: the current timestamp is not recorded. -/
theorem check_disallowed_frame (cfg : RLConfig) (st : RLState) (id : String) (now : Int)
    (h : (RateLimit.check cfg st id now).1.allowed = false) :
    (RateLimit.check cfg st id now).2 = st := by
  simp only [RateLimit.check] at h ⊢
  rw [h]
  simp

/-- Witness for C5: a limiter with `maxRequests = 0` rejects the first call
and leaves the (empty) map unchanged. -/
theorem check_disallowed_frame_witness :
    (RateLimit.check ⟨0, 10⟩ [] "u" 0).1.allowed = false ∧
    (RateLimit.check ⟨0, 10⟩ [] "u" 0).2 = [] :=
  ⟨rfl, check_disallowed_frame ⟨0, 10⟩ [] "u" 0 rfl⟩

theorem lookupTs_mem : ∀ (st : RLState) (k : String) (l : List Int),
    lookupTs st k = some l → (k, l) ∈ st := by
  intro st
  induction st with
  | nil => intro k l h; simp [lookupTs] at h
  | cons p rest ih =>
    intro k l h
    obtain ⟨k0, v⟩ := p
    simp only [lookupTs] at h
    by_cases hk : k0 = k
    · rw [if_pos hk] at h
      cases h
      subst hk
      exact List.mem_cons_self _ _
    · rw [if_neg hk] at h
      exact List.mem_cons_of_mem _ (ih k l h)

theorem lookupTs_setTs_self : ∀ (st : RLState) (k : String) (v : List Int),
    lookupTs (setTs st k v) k = some v := by
  intro st
  induction st with
  | nil => intro k v; simp [setTs, lookupTs]
  | cons p rest ih =>
    intro k v
    obtain ⟨k0, w⟩ := p
    simp only [setTs]
    by_cases hk : k0 = k
    · rw [if_pos hk]
      simp [lookupTs, hk]
    · rw [if_neg hk]
      simp [lookupTs, hk, ih]

theorem lookupTs_cleanup_none (cfg : RLConfig) (now : Int) :
    ∀ (st : RLState) (k : String), lookupTs st k = none →
    lookupTs (RateLimit.cleanup cfg st now) k = none := by
  intro st
  induction st with
  | nil => intro k _; rfl
  | cons p rest ih =>
    intro k h
    obtain ⟨k0, v⟩ := p
    simp only [lookupTs] at h
    by_cases hk : k0 = k
    · rw [if_pos hk] at h; cases h
    · rw [if_neg hk] at h
      simp only [RateLimit.cleanup]
      by_cases hempty : ((v.filter (fun t => decide (now - cfg.windowMs < t))).length = 0)
      · rw [if_pos hempty]
        exact ih k h
      · rw [if_neg hempty]
        simp only [lookupTs, if_neg hk]
        exact ih k h

/-- How `cleanup` transforms the binding of each key (on maps without
duplicate keys, as produced by the JS `Map`). -/
theorem lookupTs_cleanup (cfg : RLConfig) (now : Int) :
    ∀ (st : RLState), (st.map Prod.fst).Nodup → ∀ (k : String),
    lookupTs (RateLimit.cleanup cfg st now) k =
      (lookupTs st k).bind (fun l =>
        let f := l.filter (fun t => decide (now - cfg.windowMs < t))
        if f.length = 0 then none else some f) := by
  intro st
  induction st with
  | nil => intro _ k; rfl
  | cons p rest ih =>
    intro hnodup k
    obtain ⟨k0, v⟩ := p
    have hmap : (k0 :: rest.map Prod.fst).Nodup := by simpa using hnodup
    have hk0 : k0 ∉ rest.map Prod.fst := (List.nodup_cons.mp hmap).1
    have hnd' : (rest.map Prod.fst).Nodup := (List.nodup_cons.mp hmap).2
    simp only [RateLimit.cleanup]
    by_cases hk : k0 = k
    · subst hk
      have hnone : lookupTs rest k0 = none := by
        cases h : lookupTs rest k0 with
        | none => rfl
        | some l =>
          exact absurd (List.mem_map_of_mem Prod.fst (lookupTs_mem rest k0 l h)) hk0
      have hlook : lookupTs ((k0, v) :: rest) k0 = some v := by simp [lookupTs]
      by_cases hempty : ((v.filter (fun t => decide (now - cfg.windowMs < t))).length = 0)
      · rw [if_pos hempty, lookupTs_cleanup_none cfg now rest k0 hnone, hlook, Option.some_bind]
        rw [if_pos hempty]
      · rw [if_neg hempty, hlook, Option.some_bind]
        rw [if_neg hempty]
        simp [lookupTs]
    · by_cases hempty : ((v.filter (fun t => decide (now - cfg.windowMs < t))).length = 0)
      · rw [if_pos hempty]
        rw [ih hnd' k]
        simp only [lookupTs, if_neg hk]
      · rw [if_neg hempty]
        simp only [lookupTs, if_neg hk]
        exact ih hnd' k

/-- The map after an `allowed` `check`: the filtered list with the current
timestamp appended is stored for the identifier. -/
theorem check_allowed_state (cfg : RLConfig) (st : RLState) (id : String) (now : Int)
    (h : (RateLimit.check cfg st id now).1.allowed = true) :
    (RateLimit.check cfg st id now).2 =
      setTs st id
        ((((lookupTs st id).getD []).filter (fun ts => decide (now - cfg.windowMs < ts)))
          ++ [now]) := by
  simp only [RateLimit.check] at h ⊢
  rw [h]
  simp

/-- C4 counterexample: with `maxRequests = 1, windowMs = 10`, after the
operation sequence `check "a" at time 0; check "b" at time 100`, the stored
list for `"a"` still holds the timestamp `0`, which lies outside
`[now - windowMs, now] = [90, 100]` for the time `now = 100` of the last
operation.  The claimed storage invariant therefore does not hold for
identifiers that have not been touched within the current window. -/
theorem rateLimiter_retention_counterexample :
    lookupTs (RateLimit.applyOps ⟨1, 10⟩ [] [.check "a" 0, .check "b" 100]) "a" = some [0] ∧
    ¬ ((100 : Int) - 10 ≤ 0) := by
  constructor
  · decide
  · decide

/-- C4 (amended): the retention invariant the code actually maintains.
After a `cleanup` at time `now` (on a duplicate-free map whose timestamps are
at most `now`), every surviving list is nonempty and lies within
`[now - windowMs, now]`, and a key whose list has no in-window timestamps is
removed entirely; after an `allowed` `check` at time `now`, the checked
identifier's stored list lies within `[now - windowMs, now]`.  Entries of
identifiers not touched by the current operation may retain timestamps older
than the current window until their next `check` or the next `cleanup`. -/
theorem rateLimiter_retention_amended (cfg : RLConfig) (st : RLState) (now : Int)
    (hw : 0 < cfg.windowMs)
    (hnodup : (st.map Prod.fst).Nodup)
    (hpast : ∀ p ∈ st, ∀ ts ∈ p.2, ts ≤ now) :
    (∀ k l, lookupTs (RateLimit.cleanup cfg st now) k = some l →
        l ≠ [] ∧ ∀ ts ∈ l, now - cfg.windowMs ≤ ts ∧ ts ≤ now) ∧
    (∀ k l, lookupTs st k = some l →
        l.filter (fun ts => decide (now - cfg.windowMs < ts)) = [] →
        lookupTs (RateLimit.cleanup cfg st now) k = none) ∧
    (∀ id, (RateLimit.check cfg st id now).1.allowed = true →
        ∀ l, lookupTs (RateLimit.check cfg st id now).2 id = some l →
        ∀ ts ∈ l, now - cfg.windowMs ≤ ts ∧ ts ≤ now) := by
  refine ⟨?_, ?_, ?_⟩
  · intro k l hl
    rw [lookupTs_cleanup cfg now st hnodup k] at hl
    cases hlk : lookupTs st k with
    | none => rw [hlk] at hl; cases hl
    | some l0 =>
      rw [hlk] at hl
      simp only [Option.some_bind] at hl
      by_cases hempty : ((l0.filter (fun t => decide (now - cfg.windowMs < t))).length = 0)
      · rw [if_pos hempty] at hl; cases hl
      · rw [if_neg hempty] at hl
        cases hl
        constructor
        · intro hnil
          rw [hnil] at hempty
          simp at hempty
        · intro ts hts
          have hmem := List.mem_filter.mp hts
          have hlow : now - cfg.windowMs < ts := by simpa using hmem.2
          have hup : ts ≤ now := hpast (k, l0) (lookupTs_mem st k l0 hlk) ts hmem.1
          exact ⟨le_of_lt hlow, hup⟩
  · intro k l hl hfe
    rw [lookupTs_cleanup cfg now st hnodup k, hl]
    simp only [Option.some_bind]
    rw [if_pos (by rw [hfe]; rfl)]
  · intro id hallow l hl
    rw [check_allowed_state cfg st id now hallow, lookupTs_setTs_self] at hl
    cases hl
    intro ts hts
    rcases List.mem_append.mp hts with hin | hnow
    · have hmem := List.mem_filter.mp hin
      have hlow : now - cfg.windowMs < ts := by simpa using hmem.2
      have hup : ts ≤ now := by
        cases hlk : lookupTs st id with
        | none => rw [hlk] at hmem; simp at hmem
        | some l0 =>
          rw [hlk] at hmem
          exact hpast (id, l0) (lookupTs_mem st id l0 hlk) ts (by simpa using hmem.1)
      exact ⟨le_of_lt hlow, hup⟩
    · have : ts = now := by simpa using hnow
      subst this
      omega

/-- Witness for the amended C4 on a concrete map. -/
theorem rateLimiter_retention_amended_witness :
    ((0 : Int) < (10 : Int)) ∧
    ((([("a", [0, -100])] : RLState).map Prod.fst).Nodup) ∧
    (∀ p ∈ ([("a", [0, -100])] : RLState), ∀ ts ∈ p.2, ts ≤ (5 : Int)) ∧
    ((∀ k l, lookupTs (RateLimit.cleanup ⟨1, 10⟩ [("a", [0, -100])] 5) k = some l →
        l ≠ [] ∧ ∀ ts ∈ l, (5 : Int) - 10 ≤ ts ∧ ts ≤ 5) ∧
     (∀ k l, lookupTs ([("a", [0, -100])] : RLState) k = some l →
        l.filter (fun ts => decide ((5 : Int) - 10 < ts)) = [] →
        lookupTs (RateLimit.cleanup ⟨1, 10⟩ [("a", [0, -100])] 5) k = none) ∧
     (∀ id, (RateLimit.check ⟨1, 10⟩ [("a", [0, -100])] id 5).1.allowed = true →
        ∀ l, lookupTs (RateLimit.check ⟨1, 10⟩ [("a", [0, -100])] id 5).2 id = some l →
        ∀ ts ∈ l, (5 : Int) - 10 ≤ ts ∧ ts ≤ 5)) :=
  ⟨by decide, by decide, by decide,
    rateLimiter_retention_amended ⟨1, 10⟩ [("a", [0, -100])] 5 (by decide) (by decide) (by decide)⟩

/-! # SSRF guard (src/src/lib/security/ssrf.ts) -/

/-- A parsed absolute URL as produced by `new URL(...)`: the scheme with its
trailing colon (`url.protocol`) and the host name (`url.hostname`). -/
structure Url where
  protocol : String
  hostname : String
  deriving Repr, DecidableEq

/-- `ALLOWED_PROTOCOLS`. -/
def ALLOWED_PROTOCOLS : List String := ["http:", "https:"]

/-- Anchored matching of a literal pattern `p` at the start of `s`
(`RegExp.test` for a `/^lit/` regular expression). -/
def prefMatch : List Char → List Char → Bool
  | [], _ => true
  | _ :: _, [] => false
  | p :: ps, c :: cs => p == c && prefMatch ps cs

/-- `/^172\.(1[6-9]|2[0-9]|3[01])\./`. -/
def m172 (s : List Char) : Bool :=
  match s with
  | a :: b :: c :: d :: e :: f :: g :: _ =>
    a == '1' && b == '7' && c == '2' && d == '.' &&
      ((e == '1' && '6' ≤ f && f ≤ '9') ||
       (e == '2' && '0' ≤ f && f ≤ '9') ||
       (e == '3' && (f == '0' || f == '1'))) &&
      g == '.'
  | _ => false

/-- `[0-9a-f]`; the tested hostname is lower-cased first, so the `/i` flag of
the source regexes reduces to the lower-case ranges. -/
def hexLower (c : Char) : Bool :=
  ('0' ≤ c && c ≤ '9') || ('a' ≤ c && c ≤ 'f')

/-- `/^fd[0-9a-f]{2}:/i` applied to the lower-cased hostname. -/
def mfd (s : List Char) : Bool :=
  match s with
  | c0 :: c1 :: a :: b :: c4 :: _ =>
    c0 == 'f' && c1 == 'd' && hexLower a && hexLower b && c4 == ':'
  | _ => false

/-- The `PRIVATE_IP_RANGES` tests, in source order, applied to the
lower-cased hostname. -/
def privateIpMatch (hl : List Char) : Bool :=
  prefMatch "127.".data hl || prefMatch "10.".data hl || m172 hl ||
  prefMatch "192.168.".data hl || prefMatch "169.254.".data hl ||
  prefMatch "0.".data hl ||
  hl == "::1".data || prefMatch "fe80:".data hl || prefMatch "fc00:".data hl ||
  mfd hl || hl == "::".data

/-- `validateUrl`.  The argument models the result of `new URL(urlString)`:
`none` when parsing throws, `some u` otherwise.  A thrown `SSRFError` is
modelled as `Except.error` carrying the message. -/
def validateUrl (parsed : Option Url) : Except String Url :=
  match parsed with
  | none => .error "Invalid URL format"
  | some u =>
    if !(ALLOWED_PROTOCOLS.contains u.protocol) then
      .error ("Protocol " ++ u.protocol ++ " is not allowed. Use HTTP or HTTPS.")
    else
      let hostname : List Char := u.hostname.data.map Char.toLower
      if hostname == "localhost".data || hostname == "0.0.0.0".data then
        .error "Localhost access is not allowed"
      else if privateIpMatch hostname then
        .error "Private IP range access is not allowed"
      else if hostname == "[::1]".data || hostname == "::1".data then
        .error "IPv6 localhost access is not allowed"
      else .ok u

/-- `isUrlSafe`. -/
def isUrlSafe (parsed : Option Url) : Bool :=
  match validateUrl parsed with
  | .ok _ => true
  | .error _ => false

theorem isUrlSafe_false_of_error (parsed : Option Url) (e : String)
    (h : validateUrl parsed = .error e) : isUrlSafe parsed = false := by
  simp [isUrlSafe, h]

theorem prefMatch_append_self : ∀ (p r : List Char), prefMatch p (p ++ r) = true := by
  intro p
  induction p with
  | nil => intro r; rfl
  | cons c cs ih => intro r; simp [prefMatch, ih]

theorem prefMatch_head (p : Char) (ps s : List Char) (h : prefMatch (p :: ps) s = true) :
    ∃ t, s = p :: t := by
  match s with
  | [] => simp [prefMatch] at h
  | c :: cs =>
    simp only [prefMatch, Bool.and_eq_true, beq_iff_eq] at h
    exact ⟨cs, by rw [h.1]⟩

theorem prefMatch_mem (p s : List Char) (h : prefMatch p s = true) :
    ∀ c ∈ p, c ∈ s := by
  induction p generalizing s with
  | nil => intro c hc; simp at hc
  | cons d ds ih =>
    match s with
    | [] => simp [prefMatch] at h
    | e :: es =>
      simp only [prefMatch, Bool.and_eq_true, beq_iff_eq] at h
      intro c hc
      rcases List.mem_cons.mp hc with rfl | hc'
      · rw [h.1]; exact List.mem_cons_self _ _
      · exact List.mem_cons_of_mem _ (ih es h.2 c hc')

theorem m172_head (s : List Char) (h : m172 s = true) : ∃ t, s = '1' :: t := by
  match s with
  | a :: b :: c :: d :: e :: f :: g :: rest =>
    simp only [m172, Bool.and_eq_true, beq_iff_eq] at h
    exact ⟨_, by rw [h.1.1.1.1.1]⟩
  | [] => simp [m172] at h
  | [a] => simp [m172] at h
  | [a, b] => simp [m172] at h
  | [a, b, c] => simp [m172] at h
  | [a, b, c, d] => simp [m172] at h
  | [a, b, c, d, e] => simp [m172] at h
  | [a, b, c, d, e, f] => simp [m172] at h

theorem mfd_colon_mem (s : List Char) (h : mfd s = true) : ':' ∈ s := by
  match s with
  | c0 :: c1 :: a :: b :: c4 :: rest =>
    simp only [mfd, Bool.and_eq_true, beq_iff_eq] at h
    rw [h.2]
    simp
  | [] => simp [mfd] at h
  | [a] => simp [mfd] at h
  | [a, b] => simp [mfd] at h
  | [a, b, c] => simp [mfd] at h
  | [a, b, c, d] => simp [mfd] at h

/-- `Char.toLower` fixes every character the hostname patterns mention. -/
theorem toLower_fix : ∀ c ∈ "0123456789abcdefghijklmnopqrstuvwxyz.:-[]".data,
    Char.toLower c = c := by decide

theorem map_toLower_concat (p : List Char) (hfix : ∀ c ∈ p, Char.toLower c = c) :
    ∀ r : List Char, (p ++ r).map Char.toLower = p ++ r.map Char.toLower := by
  induction p with
  | nil => intro r; rfl
  | cons c cs ih =>
    intro r
    simp only [List.cons_append, List.map_cons]
    rw [hfix c (List.mem_cons_self _ _)]
    rw [ih (fun d hd => hfix d (List.mem_cons_of_mem _ hd)) r]

/-- If the lower-cased hostname trips any of `validateUrl`'s hostname checks,
`validateUrl` throws and `isUrlSafe` is false. -/
theorem validateUrl_error_of_hostname (u : Url)
    (hp : ALLOWED_PROTOCOLS.contains u.protocol = true)
    (hh : (u.hostname.data.map Char.toLower) = "localhost".data
        ∨ (u.hostname.data.map Char.toLower) = "0.0.0.0".data
        ∨ privateIpMatch (u.hostname.data.map Char.toLower) = true
        ∨ (u.hostname.data.map Char.toLower) = "[::1]".data
        ∨ (u.hostname.data.map Char.toLower) = "::1".data) :
    (∃ e, validateUrl (some u) = .error e) ∧ isUrlSafe (some u) = false := by
  have herr : ∃ e, validateUrl (some u) = .error e := by
    simp only [validateUrl, hp, Bool.not_true, Bool.false_eq_true, if_false]
    by_cases h1 : ((u.hostname.data.map Char.toLower) == "localhost".data
        || (u.hostname.data.map Char.toLower) == "0.0.0.0".data) = true
    · rw [if_pos h1]; exact ⟨_, rfl⟩
    · rw [if_neg h1]
      by_cases h2 : privateIpMatch (u.hostname.data.map Char.toLower) = true
      · rw [if_pos h2]; exact ⟨_, rfl⟩
      · rw [if_neg h2]
        by_cases h3 : ((u.hostname.data.map Char.toLower) == "[::1]".data
            || (u.hostname.data.map Char.toLower) == "::1".data) = true
        · rw [if_pos h3]; exact ⟨_, rfl⟩
        · exfalso
          rcases hh with ha | hb | hc | hd | he
          · exact h1 (by simp [ha])
          · exact h1 (by simp [hb])
          · exact h2 hc
          · exact h3 (by simp [hd])
          · exact h3 (by simp [he])
  obtain ⟨e, he⟩ := herr
  exact ⟨⟨e, he⟩, isUrlSafe_false_of_error _ e he⟩

/-- The hostnames enumerated by claim C2: dotted names starting `10.`,
`172.16-31.`, `192.168.`, `169.254.`, `127.`, `0.`, and the name
`localhost`. -/
def ClaimPrivateV4 (h : String) : Prop :=
  (∃ r, h.data = "10.".data ++ r) ∨
  (∃ n r, 16 ≤ n ∧ n ≤ 31 ∧ h.data = ("172." ++ Nat.repr n ++ ".").data ++ r) ∨
  (∃ r, h.data = "192.168.".data ++ r) ∨
  (∃ r, h.data = "169.254.".data ++ r) ∨
  (∃ r, h.data = "127.".data ++ r) ∨
  (∃ r, h.data = "0.".data ++ r) ∨
  h.data = "localhost".data

/-- A sufficient formalization of a "public domain hostname" (such as
`example.com`): made of lower-case letters, digits, dots and hyphens,
starting with a letter, and different from `localhost`. -/
def PublicDomain (h : String) : Prop :=
  (∀ c ∈ h.data, c ∈ "abcdefghijklmnopqrstuvwxyz0123456789.-".data) ∧
  (∃ c r, h.data = c :: r ∧ c ∈ "abcdefghijklmnopqrstuvwxyz".data) ∧
  h.data ≠ "localhost".data

theorem pd_letter_facts : ∀ c ∈ "abcdefghijklmnopqrstuvwxyz".data,
    c ≠ '0' ∧ c ≠ '1' ∧ c ≠ ':' ∧ c ≠ '[' := by decide

theorem pd_chars_facts : ∀ c ∈ "abcdefghijklmnopqrstuvwxyz0123456789.-".data,
    Char.toLower c = c := by decide

theorem m172_repr (n : Nat) (h16 : 16 ≤ n) (h31 : n ≤ 31) (r : List Char) :
    m172 ((("172." ++ Nat.repr n ++ ".").data ++ r).map Char.toLower) = true := by
  interval_cases n <;>
    · rw [map_toLower_concat _ (by decide) r]
      rfl

/-- C2: for an http(s) URL whose hostname matches one of the private IPv4
patterns (`10.*`, `172.16-31.*`, `192.168.*`, `169.254.*`, `127.*`, `0.*`) or
equals `localhost`, `validateUrl` throws `SSRFError` and `isUrlSafe` returns
false; for any scheme other than http/https `validateUrl` throws; for an
http(s) URL with a public domain hostname `validateUrl` returns the URL
object (with that hostname) and `isUrlSafe` returns true. -/
theorem validateUrl_spec :
    (∀ u : Url, (u.protocol = "http:" ∨ u.protocol = "https:") → ClaimPrivateV4 u.hostname →
       (∃ e, validateUrl (some u) = .error e) ∧ isUrlSafe (some u) = false) ∧
    (∀ u : Url, u.protocol ≠ "http:" → u.protocol ≠ "https:" →
       ∃ e, validateUrl (some u) = .error e) ∧
    (∀ u : Url, (u.protocol = "http:" ∨ u.protocol = "https:") → PublicDomain u.hostname →
       validateUrl (some u) = .ok u ∧ isUrlSafe (some u) = true) := by
  refine ⟨?_, ?_, ?_⟩
  · intro u hp hpriv
    have hcont : ALLOWED_PROTOCOLS.contains u.protocol = true := by
      rcases hp with h | h <;> simp [ALLOWED_PROTOCOLS, h]
    apply validateUrl_error_of_hostname u hcont
    rcases hpriv with ⟨r, hd⟩ | ⟨n, r, h16, h31, hd⟩ | ⟨r, hd⟩ | ⟨r, hd⟩ | ⟨r, hd⟩ | ⟨r, hd⟩ | hd
    · refine Or.inr (Or.inr (Or.inl ?_))
      rw [hd, map_toLower_concat "10.".data (by decide) r]
      have hcomp : prefMatch "10.".data ("10.".data ++ List.map Char.toLower r) = true :=
        prefMatch_append_self _ _
      simp only [privateIpMatch]
      rw [hcomp]
      simp
    · refine Or.inr (Or.inr (Or.inl ?_))
      rw [hd]
      simp only [privateIpMatch]
      rw [m172_repr n h16 h31 r]
      simp
    · refine Or.inr (Or.inr (Or.inl ?_))
      rw [hd, map_toLower_concat "192.168.".data (by decide) r]
      have hcomp : prefMatch "192.168.".data ("192.168.".data ++ List.map Char.toLower r) = true :=
        prefMatch_append_self _ _
      simp only [privateIpMatch]
      rw [hcomp]
      simp
    · refine Or.inr (Or.inr (Or.inl ?_))
      rw [hd, map_toLower_concat "169.254.".data (by decide) r]
      have hcomp : prefMatch "169.254.".data ("169.254.".data ++ List.map Char.toLower r) = true :=
        prefMatch_append_self _ _
      simp only [privateIpMatch]
      rw [hcomp]
      simp
    · refine Or.inr (Or.inr (Or.inl ?_))
      rw [hd, map_toLower_concat "127.".data (by decide) r]
      have hcomp : prefMatch "127.".data ("127.".data ++ List.map Char.toLower r) = true :=
        prefMatch_append_self _ _
      simp only [privateIpMatch]
      rw [hcomp]
      simp
    · refine Or.inr (Or.inr (Or.inl ?_))
      rw [hd, map_toLower_concat "0.".data (by decide) r]
      have hcomp : prefMatch "0.".data ("0.".data ++ List.map Char.toLower r) = true :=
        prefMatch_append_self _ _
      simp only [privateIpMatch]
      rw [hcomp]
      simp
    · refine Or.inl ?_
      rw [hd]
      decide
  · intro u h1 h2
    have hcont : ALLOWED_PROTOCOLS.contains u.protocol = false := by
      simp [ALLOWED_PROTOCOLS, h1, h2]
    have herr : validateUrl (some u)
        = .error ("Protocol " ++ u.protocol ++ " is not allowed. Use HTTP or HTTPS.") := by
      simp only [validateUrl]
      rw [hcont]
      rfl
    exact ⟨_, herr⟩
  · intro u hp hpd
    obtain ⟨hall, ⟨c, r, hdata, hc⟩, hne⟩ := hpd
    have hcont : ALLOWED_PROTOCOLS.contains u.protocol = true := by
      rcases hp with h | h <;> simp [ALLOWED_PROTOCOLS, h]
    have hfixall : ∀ d ∈ u.hostname.data, Char.toLower d = d :=
      fun d hd => pd_chars_facts d (hall d hd)
    have hfix : u.hostname.data.map Char.toLower = u.hostname.data := by
      calc u.hostname.data.map Char.toLower
          = u.hostname.data.map id := List.map_congr_left hfixall
        _ = u.hostname.data := List.map_id _
    have hckey := pd_letter_facts c hc
    have hcolon : (':' : Char) ∉ u.hostname.data := fun hm => absurd (hall _ hm) (by decide)
    have c1 : (u.hostname.data.map Char.toLower == "localhost".data
        || u.hostname.data.map Char.toLower == "0.0.0.0".data) = false := by
      rw [hfix]
      simp only [Bool.or_eq_false_iff, beq_eq_false_iff_ne, ne_eq]
      refine ⟨hne, ?_⟩
      intro he
      rw [hdata] at he
      simp at he
      exact hckey.1 he.1
    have c2 : privateIpMatch (u.hostname.data.map Char.toLower) = false := by
      rw [hfix]
      cases hpm : privateIpMatch u.hostname.data with
      | false => rfl
      | true =>
        exfalso
        simp only [privateIpMatch, Bool.or_eq_true, beq_iff_eq] at hpm
        rcases hpm with ((((((((((h1 | h2) | h3) | h4) | h5) | h6) | h7) | h8) | h9) | h10) | h11)
        · obtain ⟨t, ht⟩ := prefMatch_head '1' _ _ h1
          rw [hdata] at ht; simp at ht
          exact hckey.2.1 ht.1
        · obtain ⟨t, ht⟩ := prefMatch_head '1' _ _ h2
          rw [hdata] at ht; simp at ht
          exact hckey.2.1 ht.1
        · obtain ⟨t, ht⟩ := m172_head _ h3
          rw [hdata] at ht; simp at ht
          exact hckey.2.1 ht.1
        · obtain ⟨t, ht⟩ := prefMatch_head '1' _ _ h4
          rw [hdata] at ht; simp at ht
          exact hckey.2.1 ht.1
        · obtain ⟨t, ht⟩ := prefMatch_head '1' _ _ h5
          rw [hdata] at ht; simp at ht
          exact hckey.2.1 ht.1
        · obtain ⟨t, ht⟩ := prefMatch_head '0' _ _ h6
          rw [hdata] at ht; simp at ht
          exact hckey.1 ht.1
        · rw [hdata] at h7; simp at h7
          exact hckey.2.2.1 h7.1
        · exact hcolon (prefMatch_mem _ _ h8 ':' (by decide))
        · exact hcolon (prefMatch_mem _ _ h9 ':' (by decide))
        · exact hcolon (mfd_colon_mem _ h10)
        · rw [hdata] at h11; simp at h11
          exact hckey.2.2.1 h11.1
    have c3 : (u.hostname.data.map Char.toLower == "[::1]".data
        || u.hostname.data.map Char.toLower == "::1".data) = false := by
      rw [hfix]
      simp only [Bool.or_eq_false_iff, beq_eq_false_iff_ne, ne_eq]
      constructor
      · intro he
        rw [hdata] at he
        simp at he
        exact hckey.2.2.2 he.1
      · intro he
        rw [hdata] at he
        simp at he
        exact hckey.2.2.1 he.1
    have hok : validateUrl (some u) = .ok u := by
      simp only [validateUrl, hcont, Bool.not_true, Bool.false_eq_true, if_false]
      rw [if_neg (by simp [c1]), if_neg (by simp [c2]), if_neg (by simp [c3])]
    exact ⟨hok, by simp [isUrlSafe, hok]⟩

/-- Witness for C2: `http://192.168.1.1` and `file:` URLs are rejected,
`https://example.com` is accepted. -/
theorem validateUrl_spec_witness :
    ((∃ e, validateUrl (some ⟨"http:", "192.168.1.1"⟩) = .error e) ∧
      isUrlSafe (some ⟨"http:", "192.168.1.1"⟩) = false) ∧
    (∃ e, validateUrl (some ⟨"file:", "example.com"⟩) = .error e) ∧
    (validateUrl (some ⟨"https:", "example.com"⟩) = .ok ⟨"https:", "example.com"⟩ ∧
      isUrlSafe (some ⟨"https:", "example.com"⟩) = true) :=
  ⟨validateUrl_spec.1 ⟨"http:", "192.168.1.1"⟩ (Or.inl rfl)
      (Or.inr (Or.inr (Or.inl ⟨"1.1".data, by decide⟩))),
   validateUrl_spec.2.1 ⟨"file:", "example.com"⟩ (by decide) (by decide),
   validateUrl_spec.2.2 ⟨"https:", "example.com"⟩ (Or.inr rfl)
      ⟨by decide, ⟨'e', "xample.com".data, by decide, by decide⟩, by decide⟩⟩

/-- Value of a hexadecimal digit. -/
def hexDigitVal (c : Char) : Option Nat :=
  if '0' ≤ c ∧ c ≤ '9' then some (c.toNat - 48)
  else if 'a' ≤ c ∧ c ≤ 'f' then some (c.toNat - 87)
  else if 'A' ≤ c ∧ c ≤ 'F' then some (c.toNat - 55)
  else none

/-- The value of the leading 16-bit group of a textual IPv6 address: the hex
digits (at most four) before the first colon. -/
def firstGroupVal (h : String) : Option Nat :=
  let g := h.data.takeWhile (fun c => c != ':')
  if g.length ≠ 0 ∧ g.length ≤ 4 ∧ g.length < h.data.length ∧
      ∀ c ∈ g, (hexDigitVal c).isSome then
    some (g.foldl (fun acc c => acc * 16 + (hexDigitVal c).getD 0) 0)
  else none

/-- Modelled from claim C3's words: the host is the IPv6 loopback `::1`, the
unspecified address `::`, a link-local address (`fe80::/10`, i.e. first group
in `[0xfe80, 0xfebf]`), or a unique-local address (`fc00::/7`, i.e. first
group in `[0xfc00, 0xfdff]`, which contains `fd00::/8`). -/
def ClaimPrivateV6 (h : String) : Prop :=
  h = "::1" ∨ h = "::" ∨
  (∃ v, firstGroupVal h = some v ∧
    ((0xfe80 ≤ v ∧ v ≤ 0xfebf) ∨ (0xfc00 ≤ v ∧ v ≤ 0xfdff)))

/-- C3 counterexample: `fc01::1` is a unique-local IPv6 address (it lies in
`fc00::/7`), yet `validateUrl` accepts it: the source patterns only match the
literal first groups `fe80:`, `fc00:` and `fd` + two hex digits, not the full
`fe80::/10` and `fc00::/7` ranges. -/
theorem validateUrl_ipv6_counterexample :
    ClaimPrivateV6 "fc01::1" ∧
    validateUrl (some ⟨"http:", "fc01::1"⟩) = .ok ⟨"http:", "fc01::1"⟩ ∧
    isUrlSafe (some ⟨"http:", "fc01::1"⟩) = true := by
  refine ⟨Or.inr (Or.inr ⟨0xfc01, by decide, Or.inr (by decide)⟩), by rfl, by rfl⟩

/-- The textual IPv6 patterns `validateUrl` actually blocks (on the
lower-cased hostname): exactly `::1`, `::` or `[::1]`, or a hostname starting
with `fe80:`, with `fc00:`, or with `fd` + two lower-case hex digits + `:`. -/
def ClaimPrivateV6Textual (h : String) : Prop :=
  h.data = "::1".data ∨ h.data = "::".data ∨ h.data = "[::1]".data ∨
  (∃ r, h.data = "fe80:".data ++ r) ∨
  (∃ r, h.data = "fc00:".data ++ r) ∨
  (∃ a b r, h.data = 'f' :: 'd' :: a :: b :: ':' :: r ∧
    a ∈ "0123456789abcdef".data ∧ b ∈ "0123456789abcdef".data)

theorem hex_lower_facts : ∀ c ∈ "0123456789abcdef".data,
    Char.toLower c = c ∧ hexLower c = true := by decide

/-- C3 (amended): for an http(s) URL whose hostname textually matches one of
the fixed IPv6 patterns of `PRIVATE_IP_RANGES` (or the explicit `[::1]`
check), `validateUrl` throws `SSRFError` and `isUrlSafe` returns false.
Addresses elsewhere in `fe80::/10` or `fc00::/7` (such as `fe81::1` or
`fc01::1`) are not blocked. -/
theorem validateUrl_ipv6_textual (u : Url)
    (hp : u.protocol = "http:" ∨ u.protocol = "https:")
    (hh : ClaimPrivateV6Textual u.hostname) :
    (∃ e, validateUrl (some u) = .error e) ∧ isUrlSafe (some u) = false := by
  have hcont : ALLOWED_PROTOCOLS.contains u.protocol = true := by
    rcases hp with h | h <;> simp [ALLOWED_PROTOCOLS, h]
  apply validateUrl_error_of_hostname u hcont
  rcases hh with hd | hd | hd | ⟨r, hd⟩ | ⟨r, hd⟩ | ⟨a, b, r, hd, ha, hb⟩
  · exact Or.inr (Or.inr (Or.inr (Or.inr (by rw [hd]; decide))))
  · refine Or.inr (Or.inr (Or.inl ?_))
    rw [hd]
    decide
  · exact Or.inr (Or.inr (Or.inr (Or.inl (by rw [hd]; decide))))
  · refine Or.inr (Or.inr (Or.inl ?_))
    rw [hd, map_toLower_concat "fe80:".data (by decide) r]
    have hcomp : prefMatch "fe80:".data ("fe80:".data ++ List.map Char.toLower r) = true :=
      prefMatch_append_self _ _
    simp only [privateIpMatch]
    rw [hcomp]
    simp
  · refine Or.inr (Or.inr (Or.inl ?_))
    rw [hd, map_toLower_concat "fc00:".data (by decide) r]
    have hcomp : prefMatch "fc00:".data ("fc00:".data ++ List.map Char.toLower r) = true :=
      prefMatch_append_self _ _
    simp only [privateIpMatch]
    rw [hcomp]
    simp
  · refine Or.inr (Or.inr (Or.inl ?_))
    rw [hd]
    simp only [List.map_cons]
    rw [(hex_lower_facts a ha).1, (hex_lower_facts b hb).1,
      toLower_fix 'f' (by decide), toLower_fix 'd' (by decide), toLower_fix ':' (by decide)]
    have hmfd : mfd ('f' :: 'd' :: a :: b :: ':' :: List.map Char.toLower r) = true := by
      simp only [mfd]
      simp [(hex_lower_facts a ha).2, (hex_lower_facts b hb).2]
    simp only [privateIpMatch]
    rw [hmfd]
    simp

/-- Witness for the amended C3 at `http://fe80::1`. -/
theorem validateUrl_ipv6_textual_witness :
    (∃ e, validateUrl (some ⟨"http:", "fe80::1"⟩) = .error e) ∧
    isUrlSafe (some ⟨"http:", "fe80::1"⟩) = false :=
  validateUrl_ipv6_textual ⟨"http:", "fe80::1"⟩ (Or.inl rfl)
    (Or.inr (Or.inr (Or.inr (Or.inl ⟨":1".data, by decide⟩))))

/-! # Error/response envelope (createErrorResponse) -/

/-- The `message` argument of `createErrorResponse`: either a JS string or a
non-string value (carried opaquely, tagged by `other`). -/
inductive MessageVal where
  | str : String → MessageVal
  | other : String → MessageVal
  deriving Repr, DecidableEq

/-- `typeof message === 'string'`. -/
def MessageVal.isString : MessageVal → Bool
  | .str _ => true
  | .other _ => false

/-- The `{error: {...}}` body built by `createErrorResponse`. -/
structure ErrorBody where
  code : String
  message : String
  requestId : String
  details : Option MessageVal
  deriving Repr, DecidableEq

/-- The parts of the produced `Response` the claims speak about. -/
structure ErrorResponseModel where
  status : Nat
  body : ErrorBody
  contentType : String
  xRequestId : String
  deriving Repr, DecidableEq

/-- `createErrorResponse`.  `isProduction` models
`process.env.NODE_ENV === 'production'` and `freshId` the value
`generateRequestId()` would return for this call.  JS truthiness in
`requestId || generateRequestId()` makes a supplied empty string fall back to
the fresh id. -/
def createErrorResponse (isProduction : Bool) (freshId : String)
    (code : String) (message : MessageVal) (status : Nat) (requestId : Option String) :
    ErrorResponseModel :=
  let id := match requestId with
    | some r => if r = "" then freshId else r
    | none => freshId
  { status := status
    body :=
      { code := code
        message := match message with | .str s => s | .other _ => "An error occurred"
        requestId := id
        details :=
          if !isProduction && !message.isString then some message else none }
    contentType := "application/json"
    xRequestId := id }

/-- C8 counterexample: a supplied (but empty) `requestId` is not echoed — JS
`requestId || generateRequestId()` treats `''` as absent, so the body carries
the freshly generated id instead of the supplied one. -/
theorem createErrorResponse_requestId_counterexample :
    (createErrorResponse false "fresh-123" "CODE" (.str "m") 400 (some "")).body.requestId
      = "fresh-123" ∧ "fresh-123" ≠ "" := by
  constructor
  · rfl
  · decide

/-- C8 (amended): `createErrorResponse` returns the given status, a body of
shape `{error: {code, message, requestId}}`, an `X-Request-ID` header equal to
`body.error.requestId`, the supplied `requestId` when it is a non-empty
string and a freshly generated id when it is absent or empty, and a `details`
field exactly when `message` is a non-string value and the build is not
production. -/
theorem createErrorResponse_spec (isProduction : Bool) (freshId : String)
    (code : String) (message : MessageVal) (status : Nat) (requestId : Option String) :
    (createErrorResponse isProduction freshId code message status requestId).status = status ∧
    (createErrorResponse isProduction freshId code message status requestId).body.code = code ∧
    (createErrorResponse isProduction freshId code message status requestId).xRequestId
      = (createErrorResponse isProduction freshId code message status requestId).body.requestId ∧
    (createErrorResponse isProduction freshId code message status requestId).contentType
      = "application/json" ∧
    (∀ r, requestId = some r → r ≠ "" →
      (createErrorResponse isProduction freshId code message status requestId).body.requestId
        = r) ∧
    (requestId = none ∨ requestId = some "" →
      (createErrorResponse isProduction freshId code message status requestId).body.requestId
        = freshId) ∧
    ((createErrorResponse isProduction freshId code message status requestId).body.details ≠ none
      ↔ message.isString = false ∧ isProduction = false) := by
  refine ⟨rfl, rfl, rfl, rfl, ?_, ?_, ?_⟩
  · intro r hr hne
    subst hr
    simp [createErrorResponse, hne]
  · intro h
    rcases h with h | h <;> subst h <;> simp [createErrorResponse]
  · cases isProduction <;> cases message <;>
      simp [createErrorResponse, MessageVal.isString]

/-- Witness for the amended C8. -/
theorem createErrorResponse_spec_witness :
    (createErrorResponse false "f-1" "C" (.other "p") 418 (some "rid")).status = 418 ∧
    (createErrorResponse false "f-1" "C" (.other "p") 418 (some "rid")).body.requestId = "rid" ∧
    (createErrorResponse false "f-1" "C" (.other "p") 418 (some "rid")).xRequestId
      = (createErrorResponse false "f-1" "C" (.other "p") 418 (some "rid")).body.requestId ∧
    (createErrorResponse false "f-1" "C" (.other "p") 418 (some "rid")).body.details ≠ none :=
  ⟨(createErrorResponse_spec false "f-1" "C" (.other "p") 418 (some "rid")).1,
   (createErrorResponse_spec false "f-1" "C" (.other "p") 418 (some "rid")).2.2.2.2.1
      "rid" rfl (by decide),
   (createErrorResponse_spec false "f-1" "C" (.other "p") 418 (some "rid")).2.2.1,
   ((createErrorResponse_spec false "f-1" "C" (.other "p") 418 (some "rid")).2.2.2.2.2.2).mpr
      ⟨rfl, rfl⟩⟩

/-! # Logger (src/src/lib/logger.ts) -/

/-- `Logger.debug`: emits the formatted line via `console.debug` only when
`process.env.NODE_ENV !== 'production'`.  `formatted` stands for the result
of `format('debug', message, meta)`; `none` models "no output". -/
def Logger.debug (nodeEnv : String) (formatted : String) : Option String :=
  if nodeEnv ≠ "production" then some formatted else none

/-- C9 counterexample: in the `test` environment — which is not
`development` — `Logger.debug` still emits a line. -/
theorem logger_debug_counterexample :
    Logger.debug "test" "line" = some "line" ∧ "test" ≠ "development" := by
  constructor
  · rfl
  · decide

/-- C9 (amended): `Logger.debug` emits exactly when the environment is not
`production` (so it also emits in e.g. `test`), and is suppressed exactly in
`production`. -/
theorem logger_debug_amended (nodeEnv : String) (formatted : String) :
    (Logger.debug nodeEnv formatted = some formatted ↔ nodeEnv ≠ "production") ∧
    (Logger.debug nodeEnv formatted = none ↔ nodeEnv = "production") := by
  by_cases h : nodeEnv = "production" <;> simp [Logger.debug, h]

/-- JavaScript's `\s` class (also used by `String.prototype.trim`). -/
def jsWhitespace (c : Char) : Bool :=
  c == ' ' || c == '\t' || c == '\n' || c.toNat == 11 || c.toNat == 12 || c == '\r' ||
  c.toNat == 0xa0 || c.toNat == 0x1680 ||
  (0x2000 ≤ c.toNat && c.toNat ≤ 0x200a) ||
  c.toNat == 0x2028 || c.toNat == 0x2029 || c.toNat == 0x202f || c.toNat == 0x205f ||
  c.toNat == 0x3000 || c.toNat == 0xfeff

/-- `String.prototype.trim`. -/
def jsTrim (s : List Char) : List Char :=
  ((s.dropWhile jsWhitespace).reverse.dropWhile jsWhitespace).reverse

/-- `s.split(',')[0]`: the characters before the first comma. -/
def beforeComma (s : List Char) : List Char := s.takeWhile (fun c => c != ',')

/-- The two headers `getClientIdentifier` reads (`headers.get` returns `null`
for an absent header, modelled as `none`). -/
structure ReqHeaders where
  forwarded : Option String
  realIp : Option String
  deriving Repr, DecidableEq

/-- JS truthiness of `headers.get(...)`: a present, non-empty string. -/
def truthy : Option String → Bool
  | some s => s != ""
  | none => false

/-- `getClientIdentifier`. -/
def getClientIdentifier (r : ReqHeaders) : String :=
  if truthy r.forwarded then
    String.mk (jsTrim (beforeComma (r.forwarded.getD "").data))
  else if truthy r.realIp then
    r.realIp.getD ""
  else
    "unknown"

/-- C10 counterexample: a request carrying an `x-forwarded-for` header whose
value is the empty string.  The header is present, and the first
comma-separated entry of `""`, trimmed, is `""`; but the code treats the
empty string as falsy and returns `x-real-ip` (here `1.2.3.4`) instead. -/
theorem getClientIdentifier_counterexample :
    getClientIdentifier ⟨some "", some "1.2.3.4"⟩ = "1.2.3.4" ∧
    String.mk (jsTrim (beforeComma "".data)) = "" ∧
    "1.2.3.4" ≠ "" := by
  refine ⟨rfl, rfl, by decide⟩

/-- C10 (amended): with neither header present `getClientIdentifier` returns
the constant `"unknown"` (so all such clients share one rate-limit bucket);
when `x-forwarded-for` is present **and non-empty**, the identifier is the
first comma-separated entry of that header, trimmed. -/
theorem getClientIdentifier_spec (r : ReqHeaders) :
    (r.forwarded = none → r.realIp = none → getClientIdentifier r = "unknown") ∧
    (∀ f, r.forwarded = some f → f ≠ "" →
      getClientIdentifier r = String.mk (jsTrim (beforeComma f.data))) := by
  constructor
  · intro h1 h2
    simp [getClientIdentifier, truthy, h1, h2]
  · intro f hf hne
    simp [getClientIdentifier, truthy, hf, hne]

/-- Witness for the amended C10. -/
theorem getClientIdentifier_spec_witness :
    getClientIdentifier ⟨none, none⟩ = "unknown" ∧
    getClientIdentifier ⟨some " 1.2.3.4 ,5.6.7.8", none⟩
      = String.mk (jsTrim (beforeComma " 1.2.3.4 ,5.6.7.8".data)) :=
  ⟨(getClientIdentifier_spec ⟨none, none⟩).1 rfl rfl,
   (getClientIdentifier_spec ⟨some " 1.2.3.4 ,5.6.7.8", none⟩).2
      " 1.2.3.4 ,5.6.7.8" rfl (by decide)⟩

/-! ## Secret redaction (`redactSecrets`)

Each entry of `SENSITIVE_PATTERNS` is modelled as a matcher that recognises
the regular expression at the head of the input and returns the rest of the
input after the match (all ten patterns are deterministic: no backtracking
can change the matched span).  `String.prototype.replace` with a `/g` regex
is the left-to-right scan `redactGo`. -/

/-- The replacement string `'[REDACTED]'`. -/
def MARKER : List Char := "[REDACTED]".data

/-- The upper-case variant of a lower-case ASCII letter (itself otherwise):
what the `i` flag adds for the ASCII pattern literals. -/
def upperChar (p : Char) : Char :=
  if 'a' ≤ p ∧ p ≤ 'z' then Char.ofNat (p.toNat - 32) else p

/-- Case-insensitive comparison of input character `c` with pattern literal
`p` (the pattern literals are lower-case ASCII or symbols). -/
def ciEqC (p c : Char) : Bool := c == p || c == upperChar p

/-- Consume the literal `pat` case-insensitively from the head of the input,
returning the rest. -/
def ciAfter : List Char → List Char → Option (List Char)
  | [], s => some s
  | _ :: _, [] => none
  | p :: ps, c :: cs => if ciEqC p c then ciAfter ps cs else none

/-- The separator class `["\s:=]` of the key-value patterns. -/
def sepChar (c : Char) : Bool :=
  c == '"' || jsWhitespace c || c == ':' || c == '='

/-- The value class `[^\s",}]` of the key-value patterns. -/
def valueChar (c : Char) : Bool :=
  !(jsWhitespace c || c == '"' || c == ',' || c == '}')

/-- `["\s:=]+[^\s",}]*` after the key literal: at least one separator, then
both greedy runs. -/
def sepValueAfter : List Char → Option (List Char)
  | [] => none
  | c :: cs =>
    if sepChar c then some (((c :: cs).dropWhile sepChar).dropWhile valueChar)
    else none

/-- `/kw["\s:=]+[^\s",}]*/gi` at the head of the input. -/
def kwMatcher (kw : List Char) (s : List Char) : Option (List Char) :=
  (ciAfter kw s).bind sepValueAfter

/-- The optional `[_-]` of `/api[_-]?key/`. -/
def optSep : List Char → List Char
  | c :: cs => if c == '_' || c == '-' then cs else c :: cs
  | [] => []

/-- `/api[_-]?key["\s:=]+[^\s",}]*/gi` at the head of the input. -/
def apiKeyMatcher (s : List Char) : Option (List Char) :=
  (ciAfter "api".data s).bind fun r1 =>
    (ciAfter "key".data (optSep r1)).bind sepValueAfter

/-- `/authorization:\s*bearer\s+\S+/gi` (and `basic`) at the head of the
input. -/
def authMatcher (scheme : List Char) (s : List Char) : Option (List Char) :=
  (ciAfter "authorization:".data s).bind fun r1 =>
    (ciAfter scheme (r1.dropWhile jsWhitespace)).bind fun r2 =>
      match r2 with
      | c :: cs =>
        if jsWhitespace c then
          match cs.dropWhile jsWhitespace with
          | [] => none
          | r3 => some (r3.dropWhile (fun x => !jsWhitespace x))
        else none
      | [] => none

/-- The class `[^@\s]` of the connection-string patterns. -/
def connChar (c : Char) : Bool := !(c == '@' || jsWhitespace c)

/-- `[^@\s]+@` at the head of the input. -/
def connTail : List Char → Option (List Char)
  | [] => none
  | c :: cs =>
    if connChar c then
      match (c :: cs).dropWhile connChar with
      | '@' :: rest => some rest
      | _ => none
    else none

/-- The optional `l` of `/postgresql?/i`. -/
def optL : List Char → List Char
  | c :: cs => if c == 'l' || c == 'L' then cs else c :: cs
  | [] => []

/-- `/postgresql?:\/\/[^@\s]+@/gi` at the head (note: the `?` applies to the
final `l` only, so the literal is `postgresq` plus an optional `l`). -/
def pgMatcher (s : List Char) : Option (List Char) :=
  (ciAfter "postgresq".data s).bind fun r1 =>
    (ciAfter "://".data (optL r1)).bind connTail

/-- `/mysql:\/\/[^@\s]+@/gi` at the head. -/
def myMatcher (s : List Char) : Option (List Char) :=
  (ciAfter "mysql://".data s).bind connTail

/-- The optional `(\+srv)?` of the mongodb pattern. -/
def mgOpt (r : List Char) : List Char :=
  match ciAfter "+srv".data r with
  | some r' => r'
  | none => r

/-- `/mongodb(\+srv)?:\/\/[^@\s]+@/gi` at the head. -/
def mgMatcher (s : List Char) : Option (List Char) :=
  (ciAfter "mongodb".data s).bind fun r1 =>
    (ciAfter "://".data (mgOpt r1)).bind connTail

/-- The ten `SENSITIVE_PATTERNS`, in source order. -/
def SENSITIVE_PATTERNS : List (List Char → Option (List Char)) :=
  [kwMatcher "password".data, kwMatcher "token".data, apiKeyMatcher,
   kwMatcher "secret".data, kwMatcher "credential".data,
   authMatcher "bearer".data, authMatcher "basic".data,
   pgMatcher, myMatcher, mgMatcher]

/-- The left-to-right global-replace scan of `String.prototype.replace`:
at each position, replace a match with the marker and continue after it,
otherwise copy one character.  `fuel` bounds the recursion (every match
consumes at least one character). -/
def redactGo (m : List Char → Option (List Char)) : Nat → List Char → List Char
  | 0, l => l
  | _ + 1, [] => []
  | fuel + 1, c :: cs =>
    match m (c :: cs) with
    | some rest => MARKER ++ redactGo m fuel rest
    | none => c :: redactGo m fuel cs

/-- `redacted.replace(pattern, '[REDACTED]')` for one pattern. -/
def redactOne (m : List Char → Option (List Char)) (l : List Char) : List Char :=
  redactGo m l.length l

/-- `redactSecrets`: fold the ten replacements over the message. -/
def redactSecrets (message : String) : String :=
  String.mk (SENSITIVE_PATTERNS.foldl (fun acc m => redactOne m acc) message.data)

/-! ### Basic properties of the pattern matchers -/

/-- A matcher's rest is strictly shorter than its input (every pattern
consumes at least one character). -/
def Shr (m : List Char → Option (List Char)) : Prop :=
  ∀ s r, m s = some r → r.length < s.length

theorem ciAfter_len : ∀ (p s r : List Char), ciAfter p s = some r →
    s.length = p.length + r.length := by
  intro p
  induction p with
  | nil =>
    intro s r h
    simp only [ciAfter, Option.some.injEq] at h
    subst h
    simp
  | cons q qs ih =>
    intro s r h
    match s with
    | [] => simp [ciAfter] at h
    | c :: cs =>
      simp only [ciAfter] at h
      split at h
      · have := ih cs r h
        simp only [List.length_cons, this]
        omega
      · cases h

theorem ciAfter_suffix : ∀ (p s r : List Char), ciAfter p s = some r → r <:+ s := by
  intro p
  induction p with
  | nil =>
    intro s r h
    simp only [ciAfter, Option.some.injEq] at h
    subst h
    exact List.suffix_refl _
  | cons q qs ih =>
    intro s r h
    match s with
    | [] => simp [ciAfter] at h
    | c :: cs =>
      simp only [ciAfter] at h
      split at h
      · exact (ih cs r h).trans (List.suffix_cons c cs)
      · cases h

theorem ciAfter_self : ∀ (lit X : List Char), ciAfter lit (lit ++ X) = some X := by
  intro lit
  induction lit with
  | nil => intro X; rfl
  | cons p ps ih =>
    intro X
    simp only [List.cons_append, ciAfter, ciEqC]
    rw [if_pos (by simp)]
    exact ih X

theorem ciAfter_head (p : Char) (ps s r : List Char) (h : ciAfter (p :: ps) s = some r) :
    ∃ c cs, s = c :: cs ∧ ciEqC p c = true := by
  match s with
  | [] => simp [ciAfter] at h
  | c :: cs =>
    simp only [ciAfter] at h
    split at h
    · exact ⟨c, cs, rfl, by assumption⟩
    · cases h

theorem ciEqC_cases (p c : Char) (h : ciEqC p c = true) : c = p ∨ c = upperChar p := by
  simp only [ciEqC, Bool.or_eq_true, beq_iff_eq] at h
  exact h

theorem dropWhile_head_false (p : Char → Bool) :
    ∀ (l : List Char) (c : Char) (cs : List Char), l.dropWhile p = c :: cs → p c = false := by
  intro l
  induction l with
  | nil => intro c cs h; simp [List.dropWhile] at h
  | cons d ds ih =>
    intro c cs h
    by_cases hd : p d
    · rw [List.dropWhile_cons_of_pos hd] at h
      exact ih c cs h
    · rw [List.dropWhile_cons_of_neg hd] at h
      cases h
      exact Bool.of_not_eq_true hd

theorem optSep_suffix (l : List Char) : optSep l <:+ l := by
  match l with
  | [] => exact List.suffix_refl _
  | c :: cs =>
    simp only [optSep]
    split
    · exact List.suffix_cons c cs
    · exact List.suffix_refl _

theorem optL_suffix (l : List Char) : optL l <:+ l := by
  match l with
  | [] => exact List.suffix_refl _
  | c :: cs =>
    simp only [optL]
    split
    · exact List.suffix_cons c cs
    · exact List.suffix_refl _

theorem mgOpt_suffix (l : List Char) : mgOpt l <:+ l := by
  unfold mgOpt
  split
  · next h => exact ciAfter_suffix _ _ _ h
  · exact List.suffix_refl _

theorem sepValueAfter_suffix (s r : List Char) (h : sepValueAfter s = some r) : r <:+ s := by
  match s with
  | [] => simp [sepValueAfter] at h
  | c :: cs =>
    simp only [sepValueAfter] at h
    split at h
    · cases h
      exact (List.dropWhile_suffix _).trans (List.dropWhile_suffix _)
    · cases h

theorem sepValueAfter_head (s r : List Char) (h : sepValueAfter s = some r) :
    ∃ c cs, s = c :: cs ∧ sepChar c = true := by
  match s with
  | [] => simp [sepValueAfter] at h
  | c :: cs =>
    simp only [sepValueAfter] at h
    split at h
    · exact ⟨c, cs, rfl, by assumption⟩
    · cases h

theorem sepValueAfter_of_head (c : Char) (cs : List Char) (h : sepChar c = true) :
    sepValueAfter (c :: cs) = some (((c :: cs).dropWhile sepChar).dropWhile valueChar) := by
  simp [sepValueAfter, h]

theorem connTail_suffix (s r : List Char) (h : connTail s = some r) : r <:+ s := by
  match s with
  | [] => simp [connTail] at h
  | c :: cs =>
    simp only [connTail] at h
    split at h
    · split at h
      · next hdrop =>
        cases h
        have : '@' :: r <:+ c :: cs := hdrop ▸ List.dropWhile_suffix connChar
        exact (List.suffix_cons '@' r).trans this
      · cases h
    · cases h

theorem bind_some_decomp {α β : Type} (x : Option α) (f : α → Option β) (b : β)
    (h : x.bind f = some b) : ∃ a, x = some a ∧ f a = some b := by
  cases x with
  | none => cases h
  | some a => exact ⟨a, rfl, h⟩

theorem head_nonWs_of_ciAfter (p : Char) (ps s r : List Char)
    (hp : jsWhitespace p = false) (hup : jsWhitespace (upperChar p) = false)
    (h : ciAfter (p :: ps) s = some r) :
    ∃ c cs, s = c :: cs ∧ jsWhitespace c = false := by
  obtain ⟨c, cs, rfl, hci⟩ := ciAfter_head p ps s r h
  rcases ciEqC_cases p c hci with rfl | rfl
  · exact ⟨_, _, rfl, hp⟩
  · exact ⟨_, _, rfl, hup⟩

/-- Every pattern's match starts with a non-whitespace character (the first
literal letter, in either case). -/
theorem matchers_head : ∀ m ∈ SENSITIVE_PATTERNS, ∀ s r, m s = some r →
    ∃ c cs, s = c :: cs ∧ jsWhitespace c = false := by
  intro m hm s r h
  simp only [SENSITIVE_PATTERNS, List.mem_cons, List.not_mem_nil, or_false] at hm
  rcases hm with rfl | rfl | rfl | rfl | rfl | rfl | rfl | rfl | rfl | rfl <;>
    · obtain ⟨r1, h1, h2⟩ := bind_some_decomp _ _ _ h
      exact head_nonWs_of_ciAfter _ _ _ _ (by decide) (by decide) h1

theorem authMatcher_decomp (scheme s r : List Char) (h : authMatcher scheme s = some r) :
    ∃ r1 r2 c cs d ds,
      ciAfter "authorization:".data s = some r1 ∧
      ciAfter scheme (r1.dropWhile jsWhitespace) = some r2 ∧
      r2 = c :: cs ∧ jsWhitespace c = true ∧
      cs.dropWhile jsWhitespace = d :: ds ∧
      r = (d :: ds).dropWhile (fun x => !jsWhitespace x) := by
  obtain ⟨r1, h1, h2⟩ := bind_some_decomp _ _ _ h
  obtain ⟨r2, h3, h4⟩ := bind_some_decomp _ _ _ h2
  rcases r2 with _ | ⟨c, cs⟩
  · simp at h4
  · simp only at h4
    split at h4
    · next hwsc =>
      rcases hdrop : cs.dropWhile jsWhitespace with _ | ⟨d, ds⟩
      · rw [hdrop] at h4
        simp at h4
      · rw [hdrop] at h4
        cases h4
        exact ⟨r1, c :: cs, c, cs, d, ds, h1, h3, rfl, hwsc, hdrop, rfl⟩
    · cases h4

theorem connTail_decomp (s r : List Char) (h : connTail s = some r) :
    ∃ c cs, s = c :: cs ∧ connChar c = true ∧ s.dropWhile connChar = '@' :: r := by
  match s with
  | [] => cases h
  | c :: cs =>
    simp only [connTail] at h
    split at h
    · split at h
      · next heq =>
        cases h
        exact ⟨c, cs, rfl, by assumption, heq⟩
      · cases h
    · cases h

theorem matchers_suffix : ∀ m ∈ SENSITIVE_PATTERNS, ∀ s r, m s = some r → r <:+ s := by
  intro m hm s r h
  simp only [SENSITIVE_PATTERNS, List.mem_cons, List.not_mem_nil, or_false] at hm
  rcases hm with rfl | rfl | rfl | rfl | rfl | rfl | rfl | rfl | rfl | rfl
  · obtain ⟨r1, h1, h2⟩ := bind_some_decomp _ _ _ h
    exact (sepValueAfter_suffix _ _ h2).trans (ciAfter_suffix _ _ _ h1)
  · obtain ⟨r1, h1, h2⟩ := bind_some_decomp _ _ _ h
    exact (sepValueAfter_suffix _ _ h2).trans (ciAfter_suffix _ _ _ h1)
  · obtain ⟨r1, h1, h2⟩ := bind_some_decomp _ _ _ h
    obtain ⟨r2, h3, h4⟩ := bind_some_decomp _ _ _ h2
    exact ((((sepValueAfter_suffix _ _ h4).trans (ciAfter_suffix _ _ _ h3)).trans
      (optSep_suffix r1)).trans (ciAfter_suffix _ _ _ h1))
  · obtain ⟨r1, h1, h2⟩ := bind_some_decomp _ _ _ h
    exact (sepValueAfter_suffix _ _ h2).trans (ciAfter_suffix _ _ _ h1)
  · obtain ⟨r1, h1, h2⟩ := bind_some_decomp _ _ _ h
    exact (sepValueAfter_suffix _ _ h2).trans (ciAfter_suffix _ _ _ h1)
  · obtain ⟨r1, r2, c, cs, d, ds, h1, h3, hr2, hws, heq, hr⟩ := authMatcher_decomp _ _ _ h
    subst hr
    have s1 : (d :: ds).dropWhile (fun x => !jsWhitespace x) <:+ d :: ds :=
      List.dropWhile_suffix _
    have s2 : d :: ds <:+ cs := heq ▸ List.dropWhile_suffix _
    have s3 : cs <:+ r2 := hr2 ▸ List.suffix_cons c cs
    have s4 : r2 <:+ r1.dropWhile jsWhitespace := ciAfter_suffix _ _ _ h3
    have s5 : r1.dropWhile jsWhitespace <:+ r1 := List.dropWhile_suffix _
    exact ((((s1.trans s2).trans s3).trans s4).trans
      (s5.trans (ciAfter_suffix _ _ _ h1))).trans (List.suffix_refl s) |>.trans
      (List.suffix_refl s)
  · obtain ⟨r1, r2, c, cs, d, ds, h1, h3, hr2, hws, heq, hr⟩ := authMatcher_decomp _ _ _ h
    subst hr
    have s1 : (d :: ds).dropWhile (fun x => !jsWhitespace x) <:+ d :: ds :=
      List.dropWhile_suffix _
    have s2 : d :: ds <:+ cs := heq ▸ List.dropWhile_suffix _
    have s3 : cs <:+ r2 := hr2 ▸ List.suffix_cons c cs
    have s4 : r2 <:+ r1.dropWhile jsWhitespace := ciAfter_suffix _ _ _ h3
    have s5 : r1.dropWhile jsWhitespace <:+ r1 := List.dropWhile_suffix _
    exact (((s1.trans s2).trans s3).trans s4).trans (s5.trans (ciAfter_suffix _ _ _ h1))
  · obtain ⟨r1, h1, h2⟩ := bind_some_decomp _ _ _ h
    obtain ⟨r2, h3, h4⟩ := bind_some_decomp _ _ _ h2
    exact (((connTail_suffix _ _ h4).trans (ciAfter_suffix _ _ _ h3)).trans
      (optL_suffix r1)).trans (ciAfter_suffix _ _ _ h1)
  · obtain ⟨r1, h1, h2⟩ := bind_some_decomp _ _ _ h
    exact (connTail_suffix _ _ h2).trans (ciAfter_suffix _ _ _ h1)
  · obtain ⟨r1, h1, h2⟩ := bind_some_decomp _ _ _ h
    obtain ⟨r2, h3, h4⟩ := bind_some_decomp _ _ _ h2
    exact (((connTail_suffix _ _ h4).trans (ciAfter_suffix _ _ _ h3)).trans
      (mgOpt_suffix r1)).trans (ciAfter_suffix _ _ _ h1)

theorem matchers_shr : ∀ m ∈ SENSITIVE_PATTERNS, Shr m := by
  intro m hm
  simp only [SENSITIVE_PATTERNS, List.mem_cons, List.not_mem_nil, or_false] at hm
  intro s r h
  rcases hm with rfl | rfl | rfl | rfl | rfl | rfl | rfl | rfl | rfl | rfl
  · obtain ⟨r1, h1, h2⟩ := bind_some_decomp _ _ _ h
    have hlen := ciAfter_len _ _ _ h1
    have hr := (sepValueAfter_suffix _ _ h2).length_le
    simp only [List.length_cons, List.length_nil] at hlen
    omega
  · obtain ⟨r1, h1, h2⟩ := bind_some_decomp _ _ _ h
    have hlen := ciAfter_len _ _ _ h1
    have hr := (sepValueAfter_suffix _ _ h2).length_le
    simp only [List.length_cons, List.length_nil] at hlen
    omega
  · obtain ⟨r1, h1, h2⟩ := bind_some_decomp _ _ _ h
    obtain ⟨r2, h3, h4⟩ := bind_some_decomp _ _ _ h2
    have hlen := ciAfter_len _ _ _ h1
    have hr := (((sepValueAfter_suffix _ _ h4).trans (ciAfter_suffix _ _ _ h3)).trans
      (optSep_suffix r1)).length_le
    simp only [List.length_cons, List.length_nil] at hlen
    omega
  · obtain ⟨r1, h1, h2⟩ := bind_some_decomp _ _ _ h
    have hlen := ciAfter_len _ _ _ h1
    have hr := (sepValueAfter_suffix _ _ h2).length_le
    simp only [List.length_cons, List.length_nil] at hlen
    omega
  · obtain ⟨r1, h1, h2⟩ := bind_some_decomp _ _ _ h
    have hlen := ciAfter_len _ _ _ h1
    have hr := (sepValueAfter_suffix _ _ h2).length_le
    simp only [List.length_cons, List.length_nil] at hlen
    omega
  · obtain ⟨r1, r2, c, cs, d, ds, h1, h3, hr2, hws, heq, hr⟩ := authMatcher_decomp _ _ _ h
    subst hr
    have hlen := ciAfter_len _ _ _ h1
    have hchain : (d :: ds).dropWhile (fun x => !jsWhitespace x) <:+ r1 :=
      ((((List.dropWhile_suffix _).trans (heq ▸ List.dropWhile_suffix _)).trans
        (hr2 ▸ List.suffix_cons c cs)).trans (ciAfter_suffix _ _ _ h3)).trans
        (List.dropWhile_suffix _)
    have hr := hchain.length_le
    simp only [List.length_cons, List.length_nil] at hlen
    omega
  · obtain ⟨r1, r2, c, cs, d, ds, h1, h3, hr2, hws, heq, hr⟩ := authMatcher_decomp _ _ _ h
    subst hr
    have hlen := ciAfter_len _ _ _ h1
    have hchain : (d :: ds).dropWhile (fun x => !jsWhitespace x) <:+ r1 :=
      ((((List.dropWhile_suffix _).trans (heq ▸ List.dropWhile_suffix _)).trans
        (hr2 ▸ List.suffix_cons c cs)).trans (ciAfter_suffix _ _ _ h3)).trans
        (List.dropWhile_suffix _)
    have hr := hchain.length_le
    simp only [List.length_cons, List.length_nil] at hlen
    omega
  · obtain ⟨r1, h1, h2⟩ := bind_some_decomp _ _ _ h
    obtain ⟨r2, h3, h4⟩ := bind_some_decomp _ _ _ h2
    have hlen := ciAfter_len _ _ _ h1
    have hr := (((connTail_suffix _ _ h4).trans (ciAfter_suffix _ _ _ h3)).trans
      (optL_suffix r1)).length_le
    simp only [List.length_cons, List.length_nil] at hlen
    omega
  · obtain ⟨r1, h1, h2⟩ := bind_some_decomp _ _ _ h
    have hlen := ciAfter_len _ _ _ h1
    have hr := (connTail_suffix _ _ h2).length_le
    simp only [List.length_cons, List.length_nil] at hlen
    omega
  · obtain ⟨r1, h1, h2⟩ := bind_some_decomp _ _ _ h
    obtain ⟨r2, h3, h4⟩ := bind_some_decomp _ _ _ h2
    have hlen := ciAfter_len _ _ _ h1
    have hr := (((connTail_suffix _ _ h4).trans (ciAfter_suffix _ _ _ h3)).trans
      (mgOpt_suffix r1)).length_le
    simp only [List.length_cons, List.length_nil] at hlen
    omega

theorem matchers_nil : ∀ m ∈ SENSITIVE_PATTERNS, m [] = none := by
  intro m hm
  simp only [SENSITIVE_PATTERNS, List.mem_cons, List.not_mem_nil, or_false] at hm
  rcases hm with rfl | rfl | rfl | rfl | rfl | rfl | rfl | rfl | rfl | rfl <;> rfl

/-! ### The global-replace scan -/

theorem redactGo_fuel (m : List Char → Option (List Char)) (hm : Shr m) :
    ∀ fuel l, l.length ≤ fuel → redactGo m fuel l = redactGo m l.length l := by
  intro fuel
  induction fuel using Nat.strong_induction_on with
  | _ fuel ih =>
    intro l hl
    rcases fuel with _ | fuel
    · have : l = [] := List.length_eq_zero.mp (Nat.le_zero.mp hl)
      subst this
      rfl
    · rcases l with _ | ⟨c, cs⟩
      · rfl
      · simp only [List.length_cons] at hl ⊢
        cases hmc : m (c :: cs) with
        | some rest =>
          have hrest := hm _ _ hmc
          simp only [List.length_cons] at hrest
          have e0 : redactGo m (fuel + 1) (c :: cs) = MARKER ++ redactGo m fuel rest := by
            simp [redactGo, hmc]
          have e1 : redactGo m (cs.length + 1) (c :: cs)
              = MARKER ++ redactGo m cs.length rest := by
            simp [redactGo, hmc]
          rw [e0, e1, ih fuel (Nat.lt_succ_self fuel) rest (by omega),
            ih cs.length (by omega) rest (by omega)]
        | none =>
          have e0 : redactGo m (fuel + 1) (c :: cs) = c :: redactGo m fuel cs := by
            simp [redactGo, hmc]
          have e1 : redactGo m (cs.length + 1) (c :: cs) = c :: redactGo m cs.length cs := by
            simp [redactGo, hmc]
          rw [e0, e1, ih fuel (Nat.lt_succ_self fuel) cs (by omega)]

theorem redactOne_cons_some (m : List Char → Option (List Char)) (hm : Shr m)
    (c : Char) (cs rest : List Char) (h : m (c :: cs) = some rest) :
    redactOne m (c :: cs) = MARKER ++ redactOne m rest := by
  unfold redactOne
  simp only [List.length_cons]
  have e0 : redactGo m (cs.length + 1) (c :: cs) = MARKER ++ redactGo m cs.length rest := by
    simp [redactGo, h]
  rw [e0]
  have hrest := hm _ _ h
  simp only [List.length_cons] at hrest
  rw [redactGo_fuel m hm cs.length rest (by omega)]

theorem redactOne_cons_none (m : List Char → Option (List Char))
    (c : Char) (cs : List Char) (h : m (c :: cs) = none) :
    redactOne m (c :: cs) = c :: redactOne m cs := by
  unfold redactOne
  simp only [List.length_cons]
  simp [redactGo, h]

/-- The step-by-step relation between an input and the output of one global
replace over it. -/
inductive ScanRel (m : List Char → Option (List Char)) : List Char → List Char → Prop
  | nil : ScanRel m [] []
  | cons (c : Char) (cs out : List Char) : m (c :: cs) = none → ScanRel m cs out →
      ScanRel m (c :: cs) (c :: out)
  | repl (c : Char) (cs rest out : List Char) : m (c :: cs) = some rest → ScanRel m rest out →
      ScanRel m (c :: cs) (MARKER ++ out)

theorem rel_redactOne (m : List Char → Option (List Char)) (hm : Shr m) :
    ∀ l, ScanRel m l (redactOne m l) := by
  have key : ∀ n l, l.length ≤ n → ScanRel m l (redactOne m l) := by
    intro n
    induction n with
    | zero =>
      intro l hl
      have : l = [] := List.length_eq_zero.mp (Nat.le_zero.mp hl)
      subst this
      exact ScanRel.nil
    | succ n ih =>
      intro l hl
      rcases l with _ | ⟨c, cs⟩
      · exact ScanRel.nil
      · simp only [List.length_cons] at hl
        cases hmc : m (c :: cs) with
        | some rest =>
          rw [redactOne_cons_some m hm c cs rest hmc]
          have hrest := hm _ _ hmc
          simp only [List.length_cons] at hrest
          exact ScanRel.repl c cs rest _ hmc (ih rest (by omega))
        | none =>
          rw [redactOne_cons_none m c cs hmc]
          exact ScanRel.cons c cs _ hmc (ih cs (by omega))
  exact fun l => key l.length l le_rfl

/-- No pattern occurrence anywhere in `s` (at any suffix). -/
def Clean (m : List Char → Option (List Char)) (s : List Char) : Prop :=
  ∀ t, t <:+ s → m t = none

theorem Clean.of_cons {m : List Char → Option (List Char)} {c : Char} {cs : List Char}
    (h : Clean m (c :: cs)) : Clean m cs :=
  fun t ht => h t (ht.trans (List.suffix_cons c cs))

theorem Clean.of_suffix {m : List Char → Option (List Char)} {s t : List Char}
    (h : Clean m s) (hts : t <:+ s) : Clean m t :=
  fun u hu => h u (hu.trans hts)

/-- A clean string passes through a global replace unchanged. -/
theorem redactOne_of_clean (m : List Char → Option (List Char)) :
    ∀ l, Clean m l → redactOne m l = l := by
  intro l
  induction l with
  | nil => intro _; rfl
  | cons c cs ih =>
    intro hc
    rw [redactOne_cons_none m c cs (hc _ (List.suffix_refl _)), ih hc.of_cons]

theorem suffix_append_cases {A B t : List Char} (h : t <:+ A ++ B) :
    t <:+ B ∨ ∃ a, a <:+ A ∧ a ≠ [] ∧ t = a ++ B := by
  induction A with
  | nil => exact Or.inl (by simpa using h)
  | cons x A' ih =>
    rw [List.cons_append] at h
    rcases List.suffix_cons_iff.mp h with rfl | h'
    · exact Or.inr ⟨x :: A', List.suffix_refl _, by simp, by simp⟩
    · rcases ih h' with h'' | ⟨a, ha, hne, rfl⟩
      · exact Or.inl h''
      · exact Or.inr ⟨a, ha.trans (List.suffix_cons x A'), hne, rfl⟩

/-- No pattern can match starting inside the replacement marker: the bracket
and the letters of `[REDACTED]` disagree with every pattern within its first
few literal characters. -/
theorem marker_tail_none : ∀ m ∈ SENSITIVE_PATTERNS, ∀ t, t <:+ MARKER → t ≠ [] →
    ∀ B, m (t ++ B) = none := by
  intro m hm t ht hne B
  have htails : t ∈ MARKER.tails := (List.mem_tails t MARKER).mpr ht
  simp only [show MARKER.tails =
      ["[REDACTED]".data, "REDACTED]".data, "EDACTED]".data, "DACTED]".data, "ACTED]".data,
       "CTED]".data, "TED]".data, "ED]".data, "D]".data, "]".data, []] from rfl,
    List.mem_cons, List.not_mem_nil, or_false] at htails
  simp only [SENSITIVE_PATTERNS, List.mem_cons, List.not_mem_nil, or_false] at hm
  rcases htails with rfl | rfl | rfl | rfl | rfl | rfl | rfl | rfl | rfl | rfl | rfl <;>
    first
    | exact absurd rfl hne
    | (rcases hm with rfl | rfl | rfl | rfl | rfl | rfl | rfl | rfl | rfl | rfl <;> rfl)

/-- A marker at the start of the input is copied verbatim by any global
replace. -/
theorem redactOne_marker_prefix (m : List Char → Option (List Char))
    (hmark : ∀ t, t <:+ MARKER → t ≠ [] → ∀ B, m (t ++ B) = none) :
    ∀ t, t <:+ MARKER → ∀ B, redactOne m (t ++ B) = t ++ redactOne m B := by
  intro t
  induction t with
  | nil => intro _ B; rfl
  | cons c t' ih =>
    intro ht B
    have hnone : m ((c :: t') ++ B) = none := hmark _ ht (by simp) B
    rw [List.cons_append, redactOne_cons_none m c (t' ++ B) (by simpa using hnone),
      ih ((List.suffix_cons c t').trans ht) B]
    rfl

/-! ### Transfer of matches along the scan relation -/

theorem scanRel_cons_inv {m' : List Char → Option (List Char)} {o u : List Char}
    (h : ScanRel m' o u) :
    ∀ c u', u = c :: u' →
    (∃ cs, o = c :: cs ∧ m' (c :: cs) = none ∧ ScanRel m' cs u') ∨
    (c = '[' ∧ ∃ c2 cs2 rest out, o = c2 :: cs2 ∧ m' (c2 :: cs2) = some rest ∧
      ScanRel m' rest out ∧ u' = "REDACTED]".data ++ out) := by
  cases h with
  | nil => intro c u' h; cases h
  | cons c0 cs out hnone htail =>
    intro c u' hu
    injection hu with h1 h2
    subst h1
    subst h2
    exact Or.inl ⟨cs, rfl, hnone, htail⟩
  | repl c0 cs rest out hms htail =>
    intro c u' hu
    rw [show MARKER ++ out = '[' :: ("REDACTED]".data ++ out) from rfl] at hu
    injection hu with h1 h2
    exact Or.inr ⟨h1.symm, c0, cs, rest, out, rfl, hms, htail, h2.symm⟩

theorem ciAfter_rel (m' : List Char → Option (List Char)) :
    ∀ (lit : List Char), (∀ p ∈ lit, ciEqC p '[' = false) →
    ∀ o u r, ScanRel m' o u → ciAfter lit u = some r →
      ∃ r0, ciAfter lit o = some r0 ∧ ScanRel m' r0 r := by
  intro lit
  induction lit with
  | nil =>
    intro _ o u r hrel h
    simp only [ciAfter, Option.some.injEq] at h
    subst h
    exact ⟨o, rfl, hrel⟩
  | cons p ps ih =>
    intro hlit o u r hrel h
    match hu : u, h with
    | c :: u', h =>
      rcases scanRel_cons_inv hrel c u' rfl with ⟨cs, rfl, hnone, htail⟩ |
        ⟨rfl, c2, cs2, rest, out, rfl, hms, htail, rfl⟩
      · simp only [ciAfter] at h ⊢
        split at h
        · next hci =>
          rw [if_pos hci]
          exact ih (fun q hq => hlit q (List.mem_cons_of_mem p hq)) cs u' r htail h
        · cases h
      · exfalso
        simp only [ciAfter, hlit p (List.mem_cons_self p ps)] at h
        simp at h

theorem dropWhile_ws_rel (m' : List Char → Option (List Char))
    (hhead : ∀ s r, m' s = some r → ∃ c cs, s = c :: cs ∧ jsWhitespace c = false) :
    ∀ o u, ScanRel m' o u →
      ScanRel m' (o.dropWhile jsWhitespace) (u.dropWhile jsWhitespace) := by
  intro o u hrel
  induction hrel with
  | nil => exact ScanRel.nil
  | cons c cs out hnone htail ih =>
    by_cases hc : jsWhitespace c
    · rw [List.dropWhile_cons_of_pos hc, List.dropWhile_cons_of_pos hc]
      exact ih
    · rw [List.dropWhile_cons_of_neg hc, List.dropWhile_cons_of_neg hc]
      exact ScanRel.cons c cs out hnone htail
  | repl c cs rest out hms htail ih =>
    have hcw : jsWhitespace c = false := by
      obtain ⟨c', cs', heq, hws⟩ := hhead _ _ hms
      injection heq with h1 h2
      rw [h1]
      exact hws
    rw [List.dropWhile_cons_of_neg (by simp [hcw]),
      show (MARKER ++ out).dropWhile jsWhitespace = MARKER ++ out from by
        rw [show MARKER ++ out = '[' :: ("REDACTED]".data ++ out) from rfl]
        exact List.dropWhile_cons_of_neg (by decide)]
    exact ScanRel.repl c cs rest out hms htail

/-- The scan of `[^@\s]*@`: does the string reach an `@` before any
whitespace or the end? -/
def atReach : List Char → Bool
  | [] => false
  | c :: cs => if c == '@' then true else if jsWhitespace c then false else atReach cs

/-- Head of `[^@\s]+@`: at least one class character, then `@` reachable. -/
def connOk : List Char → Bool
  | [] => false
  | c :: cs => connChar c && atReach cs

theorem connChar_split (c : Char) (h : connChar c = true) :
    (c == '@') = false ∧ jsWhitespace c = false := by
  simp only [connChar, Bool.not_eq_true', Bool.or_eq_false_iff] at h
  exact h

theorem atReach_cons_conn (c : Char) (cs : List Char) (h : connChar c = true) :
    atReach (c :: cs) = atReach cs := by
  obtain ⟨h1, h2⟩ := connChar_split c h
  simp [atReach, h1, h2]

theorem connChar_of_not (c : Char) (h1 : (c == '@') = false) (h2 : jsWhitespace c = false) :
    connChar c = true := by
  simp [connChar, h1, h2]

theorem dropWhile_conn_at : ∀ (l r : List Char), l.dropWhile connChar = '@' :: r →
    atReach l = true := by
  intro l
  induction l with
  | nil => intro r h; cases h
  | cons c cs ih =>
    intro r h
    by_cases hc : connChar c
    · rw [List.dropWhile_cons_of_pos hc] at h
      rw [atReach_cons_conn c cs hc]
      exact ih r h
    · rw [List.dropWhile_cons_of_neg hc] at h
      injection h with h1 h2
      subst h1
      simp [atReach]

theorem atReach_dropWhile_at : ∀ (l : List Char), atReach l = true →
    ∃ r, l.dropWhile connChar = '@' :: r := by
  intro l
  induction l with
  | nil => intro h; simp [atReach] at h
  | cons c cs ih =>
    intro h
    by_cases hat : (c == '@') = true
    · have hc : c = '@' := by simpa using hat
      subst hc
      refine ⟨cs, ?_⟩
      rw [List.dropWhile_cons_of_neg (by simp [connChar, jsWhitespace])]
    · by_cases hws : jsWhitespace c
      · simp [atReach, hat, hws] at h
      · have hc : connChar c = true :=
          connChar_of_not c (by simpa using hat) (by simpa using hws)
        rw [List.dropWhile_cons_of_pos hc]
        apply ih
        rw [atReach_cons_conn c cs hc] at h
        exact h

theorem connOk_atReach (s : List Char) (h : connOk s = true) : atReach s = true := by
  match s with
  | [] => simp [connOk] at h
  | c :: cs =>
    simp only [connOk, Bool.and_eq_true] at h
    rw [atReach_cons_conn c cs h.1]
    exact h.2

theorem connTail_connOk (s r : List Char) (h : connTail s = some r) : connOk s = true := by
  obtain ⟨c, cs, rfl, hc, hdrop⟩ := connTail_decomp s r h
  rw [List.dropWhile_cons_of_pos hc] at hdrop
  simp only [connOk, Bool.and_eq_true]
  exact ⟨hc, dropWhile_conn_at cs r hdrop⟩

theorem connTail_of_connOk (s : List Char) (h : connOk s = true) :
    ∃ r, connTail s = some r := by
  match s with
  | [] => simp [connOk] at h
  | c :: cs =>
    simp only [connOk, Bool.and_eq_true] at h
    obtain ⟨r, hdrop⟩ := atReach_dropWhile_at cs h.2
    refine ⟨r, ?_⟩
    simp only [connTail]
    rw [if_pos h.1, List.dropWhile_cons_of_pos h.1, hdrop]
    rfl

theorem atReach_rel (m' : List Char → Option (List Char))
    (hspan : ∀ s r, m' s = some r → connOk s = true) :
    ∀ o u, ScanRel m' o u → atReach u = true → atReach o = true := by
  intro o u hrel
  induction hrel with
  | nil => intro h; simp [atReach] at h
  | cons c cs out hnone htail ih =>
    intro h
    by_cases hat : (c == '@') = true
    · simp [atReach, hat]
    · by_cases hws : jsWhitespace c
      · simp [atReach, hat, hws] at h
      · have hc : connChar c = true :=
          connChar_of_not c (by simpa using hat) (by simpa using hws)
        rw [atReach_cons_conn c out hc] at h
        rw [atReach_cons_conn c cs hc]
        exact ih h
  | repl c cs rest out hms htail ih =>
    intro _
    have hok := hspan _ _ hms
    simp only [connOk, Bool.and_eq_true] at hok
    rw [atReach_cons_conn c cs hok.1]
    exact hok.2

theorem connOk_rel (m' : List Char → Option (List Char))
    (hspan : ∀ s r, m' s = some r → connOk s = true) :
    ∀ o u, ScanRel m' o u → connOk u = true → connOk o = true := by
  intro o u hrel h
  cases hrel with
  | nil => simp [connOk] at h
  | cons c cs out hnone htail =>
    simp only [connOk, Bool.and_eq_true] at h ⊢
    exact ⟨h.1, atReach_rel m' hspan cs out htail h.2⟩
  | repl c cs rest out hms htail => exact hspan _ _ hms

theorem scanRel_cons_ne_nil {m' : List Char → Option (List Char)} {o : List Char}
    {c : Char} {u' : List Char} (h : ScanRel m' o (c :: u')) :
    ∃ e es, o = e :: es := by
  rcases scanRel_cons_inv h c u' rfl with ⟨cs, rfl, _, _⟩ |
    ⟨_, c2, cs2, rest, out, rfl, _, _, _⟩
  · exact ⟨c, cs, rfl⟩
  · exact ⟨c2, cs2, rfl⟩

theorem sepValue_rel (m' : List Char → Option (List Char)) :
    ∀ o2 u2 r, ScanRel m' o2 u2 → sepValueAfter u2 = some r →
      ∃ r0, sepValueAfter o2 = some r0 := by
  intro o2 u2 r hrel h
  obtain ⟨d, ds, rfl, hsep⟩ := sepValueAfter_head _ _ h
  rcases scanRel_cons_inv hrel d ds rfl with ⟨ds0, rfl, _, _⟩ | ⟨rfl, _⟩
  · exact ⟨_, sepValueAfter_of_head d ds0 hsep⟩
  · exact absurd hsep (by decide)

theorem kw_ht (m' : List Char → Option (List Char)) (lit : List Char)
    (hlit : ∀ p ∈ lit, ciEqC p '[' = false) :
    ∀ o u r, ScanRel m' o u → kwMatcher lit u = some r → ∃ r0, kwMatcher lit o = some r0 := by
  intro o u r hrel h
  obtain ⟨u1, h1, h2⟩ := bind_some_decomp _ _ _ h
  obtain ⟨o1, ho1, hrel1⟩ := ciAfter_rel m' lit hlit o u u1 hrel h1
  obtain ⟨r0, hr0⟩ := sepValue_rel m' o1 u1 r hrel1 h2
  refine ⟨r0, ?_⟩
  unfold kwMatcher
  rw [ho1, Option.some_bind]
  exact hr0

theorem optSep_rel (m' : List Char → Option (List Char)) :
    ∀ o1 u1 u2, ScanRel m' o1 u1 →
    ciAfter "key".data (optSep u1) = some u2 →
    ∃ o2, ciAfter "key".data (optSep o1) = some o2 ∧ ScanRel m' o2 u2 := by
  intro o1 u1 u2 hrel h3
  rcases u1 with _ | ⟨c, cs⟩
  · cases h3
  · by_cases hcsep : (c == '_' || c == '-') = true
    · rw [show optSep (c :: cs) = cs from by simp [optSep, hcsep]] at h3
      rcases scanRel_cons_inv hrel c cs rfl with ⟨cs0, rfl, hnone, htail⟩ | ⟨rfl, _⟩
      · obtain ⟨o2, ho2, hrel2⟩ := ciAfter_rel m' "key".data (by decide) cs0 cs u2 htail h3
        exact ⟨o2, by rw [show optSep (c :: cs0) = cs0 from by simp [optSep, hcsep]]; exact ho2,
          hrel2⟩
      · exact absurd hcsep (by decide)
    · rw [show optSep (c :: cs) = c :: cs from by simp [optSep, hcsep]] at h3
      obtain ⟨o2, ho2, hrel2⟩ := ciAfter_rel m' "key".data (by decide) o1 (c :: cs) u2 hrel h3
      obtain ⟨e, es, ho1eq, hcie⟩ := ciAfter_head 'k' "ey".data o1 o2 ho2
      have hopt : optSep o1 = o1 := by
        rw [ho1eq]
        rcases ciEqC_cases _ _ hcie with rfl | rfl <;> rfl
      exact ⟨o2, by rw [hopt]; exact ho2, hrel2⟩

theorem apiKey_ht (m' : List Char → Option (List Char)) :
    ∀ o u r, ScanRel m' o u → apiKeyMatcher u = some r → ∃ r0, apiKeyMatcher o = some r0 := by
  intro o u r hrel h
  obtain ⟨u1, h1, h2⟩ := bind_some_decomp _ _ _ h
  obtain ⟨u2, h3, h4⟩ := bind_some_decomp _ _ _ h2
  obtain ⟨o1, ho1, hrel1⟩ := ciAfter_rel m' "api".data (by decide) o u u1 hrel h1
  obtain ⟨o2, ho2, hrel2⟩ := optSep_rel m' o1 u1 u2 hrel1 h3
  obtain ⟨r0, hr0⟩ := sepValue_rel m' o2 u2 r hrel2 h4
  refine ⟨r0, ?_⟩
  unfold apiKeyMatcher
  rw [ho1, Option.some_bind, ho2, Option.some_bind]
  exact hr0

theorem auth_ht (m' : List Char → Option (List Char))
    (hhead : ∀ s r, m' s = some r → ∃ c cs, s = c :: cs ∧ jsWhitespace c = false)
    (scheme : List Char) (hscheme : ∀ p ∈ scheme, ciEqC p '[' = false) :
    ∀ o u r, ScanRel m' o u → authMatcher scheme u = some r →
      ∃ r0, authMatcher scheme o = some r0 := by
  intro o u r hrel h
  obtain ⟨u1, u2, c, cs, d, ds, h1, h3, hu2, hwsc, hdrop, hr⟩ := authMatcher_decomp scheme u r h
  subst hu2
  obtain ⟨o1, ho1, hrel1⟩ := ciAfter_rel m' "authorization:".data (by decide) o u u1 hrel h1
  have hrelw : ScanRel m' (o1.dropWhile jsWhitespace) (u1.dropWhile jsWhitespace) :=
    dropWhile_ws_rel m' hhead o1 u1 hrel1
  obtain ⟨o2, ho2, hrel2⟩ := ciAfter_rel m' scheme hscheme _ _ _ hrelw h3
  rcases scanRel_cons_inv hrel2 c cs rfl with ⟨cs0, rfl, hnone, htail⟩ | ⟨rfl, _⟩
  · have hrelw2 : ScanRel m' (cs0.dropWhile jsWhitespace) (cs.dropWhile jsWhitespace) :=
      dropWhile_ws_rel m' hhead cs0 cs htail
    rw [hdrop] at hrelw2
    obtain ⟨e, es, hO⟩ := scanRel_cons_ne_nil hrelw2
    refine ⟨(e :: es).dropWhile (fun x => !jsWhitespace x), ?_⟩
    unfold authMatcher
    rw [ho1, Option.some_bind, ho2, Option.some_bind]
    simp only [hwsc, if_true, hO]
  · exact absurd hwsc (by decide)

theorem atReach_of_ciAfter :
    ∀ (lit : List Char), (∀ p ∈ lit, connChar p = true ∧ connChar (upperChar p) = true) →
    ∀ s r, ciAfter lit s = some r → atReach r = true → atReach s = true := by
  intro lit
  induction lit with
  | nil =>
    intro _ s r h hr
    simp only [ciAfter, Option.some.injEq] at h
    subst h
    exact hr
  | cons p ps ih =>
    intro hlit s r h hr
    obtain ⟨c, cs, rfl, hci⟩ := ciAfter_head p ps s r h
    have h' : ciAfter ps cs = some r := by simpa [ciAfter, hci] using h
    have hc : connChar c = true := by
      rcases ciEqC_cases _ _ hci with rfl | rfl
      · exact (hlit _ (List.mem_cons_self _ _)).1
      · exact (hlit _ (List.mem_cons_self _ _)).2
    rw [atReach_cons_conn c cs hc]
    exact ih (fun q hq => hlit q (List.mem_cons_of_mem _ hq)) cs r h' hr

theorem atReach_optL (l : List Char) : atReach (optL l) = true → atReach l = true := by
  rcases l with _ | ⟨c, cs⟩
  · intro h; simp [optL, atReach] at h
  · by_cases hl : (c == 'l' || c == 'L') = true
    · rw [show optL (c :: cs) = cs from by simp [optL, hl]]
      intro h
      have hc : connChar c = true := by
        rcases (by simpa using hl : c = 'l' ∨ c = 'L') with rfl | rfl <;> decide
      rw [atReach_cons_conn c cs hc]
      exact h
    · rw [show optL (c :: cs) = c :: cs from by simp [optL, hl]]
      exact id

theorem atReach_mgOpt (l : List Char) : atReach (mgOpt l) = true → atReach l = true := by
  cases hsrv : ciAfter "+srv".data l with
  | some l' =>
    rw [show mgOpt l = l' from by simp [mgOpt, hsrv]]
    intro h
    exact atReach_of_ciAfter "+srv".data (by decide) l l' hsrv h
  | none =>
    rw [show mgOpt l = l from by simp [mgOpt, hsrv]]
    exact id

theorem pg_span : ∀ s r, pgMatcher s = some r → connOk s = true := by
  intro s r h
  obtain ⟨r1, h1, h2⟩ := bind_some_decomp _ _ _ h
  obtain ⟨r2, h3, h4⟩ := bind_some_decomp _ _ _ h2
  have a2 : atReach r2 = true := connOk_atReach _ (connTail_connOk _ _ h4)
  have a1 : atReach r1 = true :=
    atReach_optL r1 (atReach_of_ciAfter "://".data (by decide) _ _ h3 a2)
  obtain ⟨c, cs, rfl, hci⟩ := ciAfter_head 'p' "ostgresq".data s r1 h1
  have has : atReach (c :: cs) = true :=
    atReach_of_ciAfter "postgresq".data (by decide) _ _ h1 a1
  have hc : connChar c = true := by
    rcases ciEqC_cases _ _ hci with rfl | rfl <;> decide
  simp only [connOk, Bool.and_eq_true]
  rw [atReach_cons_conn c cs hc] at has
  exact ⟨hc, has⟩

theorem my_span : ∀ s r, myMatcher s = some r → connOk s = true := by
  intro s r h
  obtain ⟨r1, h1, h2⟩ := bind_some_decomp _ _ _ h
  have a1 : atReach r1 = true := connOk_atReach _ (connTail_connOk _ _ h2)
  obtain ⟨c, cs, rfl, hci⟩ := ciAfter_head 'm' "ysql://".data s r1 h1
  have has : atReach (c :: cs) = true :=
    atReach_of_ciAfter "mysql://".data (by decide) _ _ h1 a1
  have hc : connChar c = true := by
    rcases ciEqC_cases _ _ hci with rfl | rfl <;> decide
  simp only [connOk, Bool.and_eq_true]
  rw [atReach_cons_conn c cs hc] at has
  exact ⟨hc, has⟩

theorem mg_span : ∀ s r, mgMatcher s = some r → connOk s = true := by
  intro s r h
  obtain ⟨r1, h1, h2⟩ := bind_some_decomp _ _ _ h
  obtain ⟨r2, h3, h4⟩ := bind_some_decomp _ _ _ h2
  have a2 : atReach r2 = true := connOk_atReach _ (connTail_connOk _ _ h4)
  have a1 : atReach r1 = true :=
    atReach_mgOpt r1 (atReach_of_ciAfter "://".data (by decide) _ _ h3 a2)
  obtain ⟨c, cs, rfl, hci⟩ := ciAfter_head 'm' "ongodb".data s r1 h1
  have has : atReach (c :: cs) = true :=
    atReach_of_ciAfter "mongodb".data (by decide) _ _ h1 a1
  have hc : connChar c = true := by
    rcases ciEqC_cases _ _ hci with rfl | rfl <;> decide
  simp only [connOk, Bool.and_eq_true]
  rw [atReach_cons_conn c cs hc] at has
  exact ⟨hc, has⟩

theorem optL_stage_rel (m' : List Char → Option (List Char)) :
    ∀ o1 u1 u2, ScanRel m' o1 u1 →
    ciAfter "://".data (optL u1) = some u2 →
    ∃ o2, ciAfter "://".data (optL o1) = some o2 ∧ ScanRel m' o2 u2 := by
  intro o1 u1 u2 hrel h3
  rcases u1 with _ | ⟨c, cs⟩
  · cases h3
  · by_cases hl : (c == 'l' || c == 'L') = true
    · rw [show optL (c :: cs) = cs from by simp [optL, hl]] at h3
      rcases scanRel_cons_inv hrel c cs rfl with ⟨cs0, rfl, hnone, htail⟩ | ⟨rfl, _⟩
      · obtain ⟨o2, ho2, hrel2⟩ := ciAfter_rel m' "://".data (by decide) cs0 cs u2 htail h3
        exact ⟨o2, by rw [show optL (c :: cs0) = cs0 from by simp [optL, hl]]; exact ho2, hrel2⟩
      · exact absurd hl (by decide)
    · rw [show optL (c :: cs) = c :: cs from by simp [optL, hl]] at h3
      obtain ⟨o2, ho2, hrel2⟩ := ciAfter_rel m' "://".data (by decide) o1 (c :: cs) u2 hrel h3
      obtain ⟨e, es, ho1eq, hcie⟩ := ciAfter_head ':' "//".data o1 o2 ho2
      have hopt : optL o1 = o1 := by
        rw [ho1eq]
        rcases ciEqC_cases _ _ hcie with rfl | rfl <;> rfl
      exact ⟨o2, by rw [hopt]; exact ho2, hrel2⟩

theorem mgOpt_stage_rel (m' : List Char → Option (List Char)) :
    ∀ o1 u1 u2, ScanRel m' o1 u1 →
    ciAfter "://".data (mgOpt u1) = some u2 →
    ∃ o2, ciAfter "://".data (mgOpt o1) = some o2 ∧ ScanRel m' o2 u2 := by
  intro o1 u1 u2 hrel h3
  cases hsrv : ciAfter "+srv".data u1 with
  | some u1' =>
    rw [show mgOpt u1 = u1' from by simp [mgOpt, hsrv]] at h3
    obtain ⟨o1', ho1', hrel1'⟩ := ciAfter_rel m' "+srv".data (by decide) o1 u1 u1' hrel hsrv
    obtain ⟨o2, ho2, hrel2⟩ := ciAfter_rel m' "://".data (by decide) o1' u1' u2 hrel1' h3
    exact ⟨o2, by rw [show mgOpt o1 = o1' from by simp [mgOpt, ho1']]; exact ho2, hrel2⟩
  | none =>
    rw [show mgOpt u1 = u1 from by simp [mgOpt, hsrv]] at h3
    obtain ⟨o2, ho2, hrel2⟩ := ciAfter_rel m' "://".data (by decide) o1 u1 u2 hrel h3
    obtain ⟨e, es, ho1eq, hcie⟩ := ciAfter_head ':' "//".data o1 o2 ho2
    have hopt : mgOpt o1 = o1 := by
      rw [ho1eq]
      rcases ciEqC_cases _ _ hcie with rfl | rfl <;> rfl
    exact ⟨o2, by rw [hopt]; exact ho2, hrel2⟩

theorem pg_ht (m' : List Char → Option (List Char))
    (hspan : ∀ s r, m' s = some r → connOk s = true) :
    ∀ o u r, ScanRel m' o u → pgMatcher u = some r → ∃ r0, pgMatcher o = some r0 := by
  intro o u r hrel h
  obtain ⟨u1, h1, h2⟩ := bind_some_decomp _ _ _ h
  obtain ⟨u2, h3, h4⟩ := bind_some_decomp _ _ _ h2
  obtain ⟨o1, ho1, hrel1⟩ := ciAfter_rel m' "postgresq".data (by decide) o u u1 hrel h1
  obtain ⟨o2, ho2, hrel2⟩ := optL_stage_rel m' o1 u1 u2 hrel1 h3
  have hok : connOk o2 = true := connOk_rel m' hspan o2 u2 hrel2 (connTail_connOk _ _ h4)
  obtain ⟨r0, hr0⟩ := connTail_of_connOk o2 hok
  refine ⟨r0, ?_⟩
  unfold pgMatcher
  rw [ho1, Option.some_bind, ho2, Option.some_bind]
  exact hr0

theorem my_ht (m' : List Char → Option (List Char))
    (hspan : ∀ s r, m' s = some r → connOk s = true) :
    ∀ o u r, ScanRel m' o u → myMatcher u = some r → ∃ r0, myMatcher o = some r0 := by
  intro o u r hrel h
  obtain ⟨u1, h1, h2⟩ := bind_some_decomp _ _ _ h
  obtain ⟨o1, ho1, hrel1⟩ := ciAfter_rel m' "mysql://".data (by decide) o u u1 hrel h1
  have hok : connOk o1 = true := connOk_rel m' hspan o1 u1 hrel1 (connTail_connOk _ _ h2)
  obtain ⟨r0, hr0⟩ := connTail_of_connOk o1 hok
  refine ⟨r0, ?_⟩
  unfold myMatcher
  rw [ho1, Option.some_bind]
  exact hr0

theorem mg_ht (m' : List Char → Option (List Char))
    (hspan : ∀ s r, m' s = some r → connOk s = true) :
    ∀ o u r, ScanRel m' o u → mgMatcher u = some r → ∃ r0, mgMatcher o = some r0 := by
  intro o u r hrel h
  obtain ⟨u1, h1, h2⟩ := bind_some_decomp _ _ _ h
  obtain ⟨u2, h3, h4⟩ := bind_some_decomp _ _ _ h2
  obtain ⟨o1, ho1, hrel1⟩ := ciAfter_rel m' "mongodb".data (by decide) o u u1 hrel h1
  obtain ⟨o2, ho2, hrel2⟩ := mgOpt_stage_rel m' o1 u1 u2 hrel1 h3
  have hok : connOk o2 = true := connOk_rel m' hspan o2 u2 hrel2 (connTail_connOk _ _ h4)
  obtain ⟨r0, hr0⟩ := connTail_of_connOk o2 hok
  refine ⟨r0, ?_⟩
  unfold mgMatcher
  rw [ho1, Option.some_bind, ho2, Option.some_bind]
  exact hr0

/-! ### The redaction engine: cleanliness is created and preserved -/

/-- One global replace with `m` leaves a string with no `m`-occurrence
anywhere, provided `m` cannot match inside the marker and a match in the
output would transfer back to a match in the input. -/
theorem clean_own (m : List Char → Option (List Char)) (hnil : m [] = none)
    (hmark : ∀ t, t <:+ MARKER → t ≠ [] → ∀ B, m (t ++ B) = none)
    (hht : ∀ o u r, ScanRel m o u → m u = some r → ∃ r0, m o = some r0) :
    ∀ o u, ScanRel m o u → Clean m u := by
  intro o u hrel
  induction hrel with
  | nil =>
    intro t ht
    rw [List.suffix_nil.mp ht]
    exact hnil
  | cons c cs out hnone htail ih =>
    intro t ht
    rcases List.suffix_cons_iff.mp ht with rfl | ht'
    · cases hmu : m (c :: out) with
      | none => rfl
      | some r =>
        obtain ⟨r0, hr0⟩ := hht (c :: cs) (c :: out) r (ScanRel.cons c cs out hnone htail) hmu
        rw [hnone] at hr0
        cases hr0
    · exact ih t ht'
  | repl c cs rest out hms htail ih =>
    intro t ht
    rcases suffix_append_cases ht with ht' | ⟨a, ha, hne, rfl⟩
    · exact ih t ht'
    · exact hmark a ha hne out

/-- A later global replace with `m'` preserves `m`-cleanliness, provided `m`
cannot match inside the marker and a match in the output would transfer back
to a match in the input. -/
theorem clean_transfer (m m' : List Char → Option (List Char))
    (hmark : ∀ t, t <:+ MARKER → t ≠ [] → ∀ B, m (t ++ B) = none)
    (hht : ∀ o u r, ScanRel m' o u → m u = some r → ∃ r0, m o = some r0)
    (hsuf : ∀ s r, m' s = some r → r <:+ s) :
    ∀ o u, ScanRel m' o u → Clean m o → Clean m u := by
  intro o u hrel
  induction hrel with
  | nil => exact id
  | cons c cs out hnone htail ih =>
    intro hc t ht
    rcases List.suffix_cons_iff.mp ht with rfl | ht'
    · cases hmu : m (c :: out) with
      | none => rfl
      | some r =>
        obtain ⟨r0, hr0⟩ := hht (c :: cs) (c :: out) r (ScanRel.cons c cs out hnone htail) hmu
        rw [hc _ (List.suffix_refl _)] at hr0
        cases hr0
    · exact ih hc.of_cons t ht'
  | repl c cs rest out hms htail ih =>
    intro hc t ht
    rcases suffix_append_cases ht with ht' | ⟨a, ha, hne, rfl⟩
    · exact ih (hc.of_suffix (hsuf _ _ hms)) t ht'
    · exact hmark a ha hne out

theorem clean_step (m m' : List Char → Option (List Char)) (hm' : Shr m')
    (hmark : ∀ t, t <:+ MARKER → t ≠ [] → ∀ B, m (t ++ B) = none)
    (hsuf : ∀ s r, m' s = some r → r <:+ s)
    (hht : ∀ o u r, ScanRel m' o u → m u = some r → ∃ r0, m o = some r0)
    (s : List Char) (hc : Clean m s) : Clean m (redactOne m' s) :=
  clean_transfer m m' hmark hht hsuf s (redactOne m' s) (rel_redactOne m' hm' s) hc

theorem clean_fold (m : List Char → Option (List Char))
    (hmark : ∀ t, t <:+ MARKER → t ≠ [] → ∀ B, m (t ++ B) = none) :
    ∀ (ms : List (List Char → Option (List Char))),
    (∀ m' ∈ ms, Shr m' ∧ (∀ s r, m' s = some r → r <:+ s) ∧
      (∀ o u r, ScanRel m' o u → m u = some r → ∃ r0, m o = some r0)) →
    ∀ s, Clean m s → Clean m (ms.foldl (fun acc mm => redactOne mm acc) s) := by
  intro ms
  induction ms with
  | nil => exact fun _ s hc => hc
  | cons m' ms' ih =>
    intro h s hc
    obtain ⟨hshr, hsuf, hht⟩ := h m' (List.mem_cons_self _ _)
    exact ih (fun q hq => h q (List.mem_cons_of_mem _ hq)) _
      (clean_step m m' hshr hmark hsuf hht s hc)

theorem mem_pw : kwMatcher "password".data ∈ SENSITIVE_PATTERNS := by simp [SENSITIVE_PATTERNS]

theorem mem_tk : kwMatcher "token".data ∈ SENSITIVE_PATTERNS := by simp [SENSITIVE_PATTERNS]

theorem mem_ak : apiKeyMatcher ∈ SENSITIVE_PATTERNS := by simp [SENSITIVE_PATTERNS]

theorem mem_sc : kwMatcher "secret".data ∈ SENSITIVE_PATTERNS := by simp [SENSITIVE_PATTERNS]

theorem mem_cr : kwMatcher "credential".data ∈ SENSITIVE_PATTERNS := by
  simp [SENSITIVE_PATTERNS]

theorem mem_br : authMatcher "bearer".data ∈ SENSITIVE_PATTERNS := by simp [SENSITIVE_PATTERNS]

theorem mem_ba : authMatcher "basic".data ∈ SENSITIVE_PATTERNS := by simp [SENSITIVE_PATTERNS]

theorem mem_pg : pgMatcher ∈ SENSITIVE_PATTERNS := by simp [SENSITIVE_PATTERNS]

theorem mem_my : myMatcher ∈ SENSITIVE_PATTERNS := by simp [SENSITIVE_PATTERNS]

theorem mem_mg : mgMatcher ∈ SENSITIVE_PATTERNS := by simp [SENSITIVE_PATTERNS]

/-- The full ten-pattern redaction pipeline on character lists. -/
def redactAll (l : List Char) : List Char :=
  SENSITIVE_PATTERNS.foldl (fun acc m => redactOne m acc) l

theorem foldl_peel (m : List Char → Option (List Char))
    (ms : List (List Char → Option (List Char))) (s : List Char) :
    (m :: ms).foldl (fun acc mm => redactOne mm acc) s
      = ms.foldl (fun acc mm => redactOne mm acc) (redactOne m s) := by
  rw [List.foldl_cons]

theorem redactAll_peel (l : List Char) : redactAll l =
    [kwMatcher "token".data, apiKeyMatcher, kwMatcher "secret".data,
     kwMatcher "credential".data, authMatcher "bearer".data, authMatcher "basic".data,
     pgMatcher, myMatcher, mgMatcher].foldl (fun acc m => redactOne m acc)
      (redactOne (kwMatcher "password".data) l) := by
  unfold redactAll
  rw [show SENSITIVE_PATTERNS = kwMatcher "password".data ::
    [kwMatcher "token".data, apiKeyMatcher, kwMatcher "secret".data,
     kwMatcher "credential".data, authMatcher "bearer".data, authMatcher "basic".data,
     pgMatcher, myMatcher, mgMatcher] from rfl]
  rw [List.foldl_cons]

theorem clean_pw_all (l : List Char) :
    Clean (kwMatcher "password".data) (redactAll l) := by
  rw [redactAll_peel]
  have h0 : Clean (kwMatcher "password".data) (redactOne (kwMatcher "password".data) l) :=
    clean_own _ (matchers_nil _ mem_pw) (marker_tail_none _ mem_pw)
      (kw_ht _ "password".data (by decide)) _ _ (rel_redactOne _ (matchers_shr _ mem_pw) l)
  exact clean_fold _ (marker_tail_none _ mem_pw) _
    (by
      intro m' hm'
      have hmem : m' ∈ SENSITIVE_PATTERNS := by
        simp only [List.mem_cons, List.not_mem_nil, or_false] at hm'
        simp only [SENSITIVE_PATTERNS, List.mem_cons, List.not_mem_nil, or_false]
        tauto
      exact ⟨matchers_shr m' hmem, matchers_suffix m' hmem,
        kw_ht m' "password".data (by decide)⟩)
    _ h0

theorem clean_tk_all (l : List Char) :
    Clean (kwMatcher "token".data) (redactAll l) := by
  rw [redactAll_peel, foldl_peel]
  have h0 : Clean (kwMatcher "token".data)
      (redactOne (kwMatcher "token".data) (redactOne (kwMatcher "password".data) l)) :=
    clean_own _ (matchers_nil _ mem_tk) (marker_tail_none _ mem_tk)
      (kw_ht _ "token".data (by decide)) _ _ (rel_redactOne _ (matchers_shr _ mem_tk) _)
  exact clean_fold _ (marker_tail_none _ mem_tk) _
    (by
      intro m' hm'
      have hmem : m' ∈ SENSITIVE_PATTERNS := by
        simp only [List.mem_cons, List.not_mem_nil, or_false] at hm'
        simp only [SENSITIVE_PATTERNS, List.mem_cons, List.not_mem_nil, or_false]
        tauto
      exact ⟨matchers_shr m' hmem, matchers_suffix m' hmem,
        kw_ht m' "token".data (by decide)⟩)
    _ h0

theorem clean_ak_all (l : List Char) : Clean apiKeyMatcher (redactAll l) := by
  rw [redactAll_peel, foldl_peel, foldl_peel]
  have h0 : Clean apiKeyMatcher
      (redactOne apiKeyMatcher (redactOne (kwMatcher "token".data)
        (redactOne (kwMatcher "password".data) l))) :=
    clean_own _ (matchers_nil _ mem_ak) (marker_tail_none _ mem_ak)
      (apiKey_ht _) _ _ (rel_redactOne _ (matchers_shr _ mem_ak) _)
  exact clean_fold _ (marker_tail_none _ mem_ak) _
    (by
      intro m' hm'
      have hmem : m' ∈ SENSITIVE_PATTERNS := by
        simp only [List.mem_cons, List.not_mem_nil, or_false] at hm'
        simp only [SENSITIVE_PATTERNS, List.mem_cons, List.not_mem_nil, or_false]
        tauto
      exact ⟨matchers_shr m' hmem, matchers_suffix m' hmem, apiKey_ht m'⟩)
    _ h0

theorem clean_sc_all (l : List Char) :
    Clean (kwMatcher "secret".data) (redactAll l) := by
  rw [redactAll_peel, foldl_peel, foldl_peel, foldl_peel]
  have h0 : Clean (kwMatcher "secret".data)
      (redactOne (kwMatcher "secret".data) (redactOne apiKeyMatcher
        (redactOne (kwMatcher "token".data) (redactOne (kwMatcher "password".data) l)))) :=
    clean_own _ (matchers_nil _ mem_sc) (marker_tail_none _ mem_sc)
      (kw_ht _ "secret".data (by decide)) _ _ (rel_redactOne _ (matchers_shr _ mem_sc) _)
  exact clean_fold _ (marker_tail_none _ mem_sc) _
    (by
      intro m' hm'
      have hmem : m' ∈ SENSITIVE_PATTERNS := by
        simp only [List.mem_cons, List.not_mem_nil, or_false] at hm'
        simp only [SENSITIVE_PATTERNS, List.mem_cons, List.not_mem_nil, or_false]
        tauto
      exact ⟨matchers_shr m' hmem, matchers_suffix m' hmem,
        kw_ht m' "secret".data (by decide)⟩)
    _ h0

theorem clean_cr_all (l : List Char) :
    Clean (kwMatcher "credential".data) (redactAll l) := by
  rw [redactAll_peel, foldl_peel, foldl_peel, foldl_peel, foldl_peel]
  have h0 : Clean (kwMatcher "credential".data)
      (redactOne (kwMatcher "credential".data) (redactOne (kwMatcher "secret".data)
        (redactOne apiKeyMatcher (redactOne (kwMatcher "token".data)
          (redactOne (kwMatcher "password".data) l))))) :=
    clean_own _ (matchers_nil _ mem_cr) (marker_tail_none _ mem_cr)
      (kw_ht _ "credential".data (by decide)) _ _ (rel_redactOne _ (matchers_shr _ mem_cr) _)
  exact clean_fold _ (marker_tail_none _ mem_cr) _
    (by
      intro m' hm'
      have hmem : m' ∈ SENSITIVE_PATTERNS := by
        simp only [List.mem_cons, List.not_mem_nil, or_false] at hm'
        simp only [SENSITIVE_PATTERNS, List.mem_cons, List.not_mem_nil, or_false]
        tauto
      exact ⟨matchers_shr m' hmem, matchers_suffix m' hmem,
        kw_ht m' "credential".data (by decide)⟩)
    _ h0

theorem clean_br_all (l : List Char) :
    Clean (authMatcher "bearer".data) (redactAll l) := by
  rw [redactAll_peel, foldl_peel, foldl_peel, foldl_peel, foldl_peel, foldl_peel]
  exact clean_fold _ (marker_tail_none _ mem_br) _
    (by
      intro m' hm'
      have hmem : m' ∈ SENSITIVE_PATTERNS := by
        simp only [List.mem_cons, List.not_mem_nil, or_false] at hm'
        simp only [SENSITIVE_PATTERNS, List.mem_cons, List.not_mem_nil, or_false]
        tauto
      exact ⟨matchers_shr m' hmem, matchers_suffix m' hmem,
        auth_ht m' (matchers_head m' hmem) "bearer".data (by decide)⟩)
    _
    (clean_own _ (matchers_nil _ mem_br) (marker_tail_none _ mem_br)
      (auth_ht _ (matchers_head _ mem_br) "bearer".data (by decide)) _ _
      (rel_redactOne _ (matchers_shr _ mem_br) _))

theorem clean_ba_all (l : List Char) :
    Clean (authMatcher "basic".data) (redactAll l) := by
  rw [redactAll_peel, foldl_peel, foldl_peel, foldl_peel, foldl_peel, foldl_peel,
    foldl_peel]
  exact clean_fold _ (marker_tail_none _ mem_ba) _
    (by
      intro m' hm'
      have hmem : m' ∈ SENSITIVE_PATTERNS := by
        simp only [List.mem_cons, List.not_mem_nil, or_false] at hm'
        simp only [SENSITIVE_PATTERNS, List.mem_cons, List.not_mem_nil, or_false]
        tauto
      exact ⟨matchers_shr m' hmem, matchers_suffix m' hmem,
        auth_ht m' (matchers_head m' hmem) "basic".data (by decide)⟩)
    _
    (clean_own _ (matchers_nil _ mem_ba) (marker_tail_none _ mem_ba)
      (auth_ht _ (matchers_head _ mem_ba) "basic".data (by decide)) _ _
      (rel_redactOne _ (matchers_shr _ mem_ba) _))

theorem clean_pg_all (l : List Char) : Clean pgMatcher (redactAll l) := by
  rw [redactAll_peel, foldl_peel, foldl_peel, foldl_peel, foldl_peel, foldl_peel,
    foldl_peel, foldl_peel]
  exact clean_fold _ (marker_tail_none _ mem_pg) _
    (by
      intro m' hm'
      simp only [List.mem_cons, List.not_mem_nil, or_false] at hm'
      rcases hm' with rfl | rfl
      · exact ⟨matchers_shr _ mem_my, matchers_suffix _ mem_my, pg_ht _ my_span⟩
      · exact ⟨matchers_shr _ mem_mg, matchers_suffix _ mem_mg, pg_ht _ mg_span⟩)
    _
    (clean_own _ (matchers_nil _ mem_pg) (marker_tail_none _ mem_pg)
      (pg_ht _ pg_span) _ _ (rel_redactOne _ (matchers_shr _ mem_pg) _))

theorem clean_my_all (l : List Char) : Clean myMatcher (redactAll l) := by
  rw [redactAll_peel, foldl_peel, foldl_peel, foldl_peel, foldl_peel, foldl_peel,
    foldl_peel, foldl_peel, foldl_peel]
  exact clean_fold _ (marker_tail_none _ mem_my) _
    (by
      intro m' hm'
      simp only [List.mem_cons, List.not_mem_nil, or_false] at hm'
      rcases hm' with rfl
      exact ⟨matchers_shr _ mem_mg, matchers_suffix _ mem_mg, my_ht _ mg_span⟩)
    _
    (clean_own _ (matchers_nil _ mem_my) (marker_tail_none _ mem_my)
      (my_ht _ my_span) _ _ (rel_redactOne _ (matchers_shr _ mem_my) _))

theorem clean_mg_all (l : List Char) : Clean mgMatcher (redactAll l) := by
  rw [redactAll_peel, foldl_peel, foldl_peel, foldl_peel, foldl_peel, foldl_peel,
    foldl_peel, foldl_peel, foldl_peel, foldl_peel]
  exact clean_fold _ (marker_tail_none _ mem_mg) _
    (fun m' hm' => absurd hm' (List.not_mem_nil m'))
    _
    (clean_own _ (matchers_nil _ mem_mg) (marker_tail_none _ mem_mg)
      (mg_ht _ mg_span) _ _ (rel_redactOne _ (matchers_shr _ mem_mg) _))

theorem clean_all : ∀ m ∈ SENSITIVE_PATTERNS, ∀ l, Clean m (redactAll l) := by
  intro m hm l
  simp only [SENSITIVE_PATTERNS, List.mem_cons, List.not_mem_nil, or_false] at hm
  rcases hm with rfl | rfl | rfl | rfl | rfl | rfl | rfl | rfl | rfl | rfl
  · exact clean_pw_all l
  · exact clean_tk_all l
  · exact clean_ak_all l
  · exact clean_sc_all l
  · exact clean_cr_all l
  · exact clean_br_all l
  · exact clean_ba_all l
  · exact clean_pg_all l
  · exact clean_my_all l
  · exact clean_mg_all l

theorem foldl_of_clean :
    ∀ (ms : List (List Char → Option (List Char))) (l : List Char),
    (∀ m ∈ ms, Clean m l) → ms.foldl (fun acc m => redactOne m acc) l = l := by
  intro ms
  induction ms with
  | nil => intro l _; rfl
  | cons m ms' ih =>
    intro l h
    rw [List.foldl_cons]
    have hml : redactOne m l = l := redactOne_of_clean m l (h m (List.mem_cons_self _ _))
    rw [hml]
    exact ih l (fun q hq => h q (List.mem_cons_of_mem _ hq))

theorem redactAll_of_clean (l : List Char)
    (h : ∀ m ∈ SENSITIVE_PATTERNS, Clean m l) : redactAll l = l := by
  unfold redactAll
  exact foldl_of_clean SENSITIVE_PATTERNS l h

theorem redactAll_idem (l : List Char) : redactAll (redactAll l) = redactAll l :=
  redactAll_of_clean (redactAll l) (fun m hm => clean_all m hm l)

theorem string_mk_data (l : List Char) : (String.mk l).data = l := rfl

theorem redactSecrets_eq_redactAll (t : String) :
    redactSecrets t = String.mk (redactAll t.data) := by
  unfold redactSecrets redactAll
  rfl

/-- C6: `redactSecrets` is idempotent: redacting already-redacted text is an
identity, for every input string. -/
theorem redactSecrets_idempotent (s : String) :
    redactSecrets (redactSecrets s) = redactSecrets s := by
  rw [redactSecrets_eq_redactAll s]
  rw [redactSecrets_eq_redactAll (String.mk (redactAll s.data))]
  rw [string_mk_data]
  rw [redactAll_idem s.data]

/-! ### Marker creation and preservation (for the redaction guarantee) -/

theorem marker_created (m : List Char → Option (List Char)) (hm : Shr m)
    (hnil : m [] = none) :
    ∀ l, (∃ t r, t <:+ l ∧ m t = some r) →
    ∃ A B, redactOne m l = A ++ (MARKER ++ B) := by
  intro l
  induction l with
  | nil =>
    rintro ⟨t, r, ht, hmt⟩
    rw [List.suffix_nil.mp ht, hnil] at hmt
    cases hmt
  | cons c cs ih =>
    rintro ⟨t, r, ht, hmt⟩
    cases hmc : m (c :: cs) with
    | some rest =>
      rw [redactOne_cons_some m hm c cs rest hmc]
      exact ⟨[], redactOne m rest, rfl⟩
    | none =>
      rw [redactOne_cons_none m c cs hmc]
      have ht' : t <:+ cs := by
        rcases List.suffix_cons_iff.mp ht with rfl | h'
        · rw [hmc] at hmt; cases hmt
        · exact h'
      obtain ⟨A, B, hAB⟩ := ih ⟨t, r, ht', hmt⟩
      exact ⟨c :: A, B, by rw [hAB]; rfl⟩

theorem marker_preserved (m : List Char → Option (List Char)) (hm : Shr m)
    (hmark : ∀ t, t <:+ MARKER → t ≠ [] → ∀ B, m (t ++ B) = none) :
    ∀ A B, ∃ A' B', redactOne m (A ++ (MARKER ++ B)) = A' ++ (MARKER ++ B') := by
  intro A
  induction A with
  | nil =>
    intro B
    refine ⟨[], redactOne m B, ?_⟩
    simp only [List.nil_append]
    exact redactOne_marker_prefix m hmark MARKER (List.suffix_refl _) B
  | cons a A' ih =>
    intro B
    cases hmc : m ((a :: A') ++ (MARKER ++ B)) with
    | some rest =>
      rw [show (a :: A') ++ (MARKER ++ B) = a :: (A' ++ (MARKER ++ B)) from rfl] at hmc ⊢
      rw [redactOne_cons_some m hm _ _ rest hmc]
      exact ⟨[], redactOne m rest, rfl⟩
    | none =>
      rw [show (a :: A') ++ (MARKER ++ B) = a :: (A' ++ (MARKER ++ B)) from rfl] at hmc ⊢
      rw [redactOne_cons_none m _ _ hmc]
      obtain ⟨A'', B'', hAB⟩ := ih B
      exact ⟨a :: A'', B'', by rw [hAB]; rfl⟩

theorem marker_fold :
    ∀ (ms : List (List Char → Option (List Char))),
    (∀ m ∈ ms, Shr m ∧ m [] = none ∧
      (∀ t, t <:+ MARKER → t ≠ [] → ∀ B, m (t ++ B) = none)) →
    ∀ s, ((∃ A B, s = A ++ (MARKER ++ B)) ∨ (∃ m ∈ ms, ∃ t r, t <:+ s ∧ m t = some r)) →
    ∃ A B, ms.foldl (fun acc mm => redactOne mm acc) s = A ++ (MARKER ++ B) := by
  intro ms
  induction ms with
  | nil =>
    intro _ s h
    rcases h with h | ⟨m, hm, _⟩
    · exact h
    · exact absurd hm (List.not_mem_nil m)
  | cons m ms' ih =>
    intro hprops s h
    obtain ⟨hshr, hnil, hmark⟩ := hprops m (List.mem_cons_self _ _)
    rw [foldl_peel]
    apply ih (fun q hq => hprops q (List.mem_cons_of_mem _ hq))
    rcases h with ⟨A, B, rfl⟩ | ⟨m0, hm0, t, r, ht, hmt⟩
    · exact Or.inl (marker_preserved m hshr hmark A B)
    · rcases List.mem_cons.mp hm0 with rfl | hm0'
      · exact Or.inl (marker_created m0 hshr hnil _ ⟨t, r, ht, hmt⟩)
      · by_cases hx : ∃ t0 r0, t0 <:+ s ∧ m t0 = some r0
        · exact Or.inl (marker_created m hshr hnil s hx)
        · have hcl : Clean m s := by
            intro t0 ht0
            cases hmt0 : m t0 with
            | none => rfl
            | some r0 => exact absurd ⟨t0, r0, ht0, hmt0⟩ hx
          rw [redactOne_of_clean m s hcl]
          exact Or.inr ⟨m0, hm0', t, r, ht, hmt⟩

theorem marker_redactAll (s : List Char)
    (h : ∃ m ∈ SENSITIVE_PATTERNS, ∃ t r, t <:+ s ∧ m t = some r) :
    ∃ A B, redactAll s = A ++ (MARKER ++ B) := by
  unfold redactAll
  exact marker_fold SENSITIVE_PATTERNS
    (fun m hm => ⟨matchers_shr _ hm, matchers_nil _ hm, marker_tail_none _ hm⟩) s (Or.inr h)

theorem kw_eq_match (kw B : List Char) :
    ∃ r, kwMatcher kw (kw ++ '=' :: B) = some r := by
  have h : kwMatcher kw (kw ++ '=' :: B)
      = some ((('=' :: B).dropWhile sepChar).dropWhile valueChar) := by
    unfold kwMatcher
    rw [ciAfter_self, Option.some_bind]
    exact sepValueAfter_of_head '=' B (by decide)
  exact ⟨_, h⟩

theorem api_eq_match (B : List Char) :
    ∃ r, apiKeyMatcher ("api_key".data ++ '=' :: B) = some r := by
  have h : apiKeyMatcher ("api_key".data ++ '=' :: B)
      = some ((('=' :: B).dropWhile sepChar).dropWhile valueChar) := by
    unfold apiKeyMatcher
    rw [show "api_key".data ++ '=' :: B
        = "api".data ++ ('_' :: ("key".data ++ '=' :: B)) from rfl]
    rw [ciAfter_self, Option.some_bind]
    rw [show optSep ('_' :: ("key".data ++ '=' :: B)) = "key".data ++ '=' :: B from rfl]
    rw [ciAfter_self, Option.some_bind]
    exact sepValueAfter_of_head '=' B (by decide)
  exact ⟨_, h⟩

theorem authMatcher_intro (scheme s r1 : List Char) (c : Char) (hc : jsWhitespace c = true)
    (cs : List Char) (h1 : ciAfter "authorization:".data s = some r1)
    (h3 : ciAfter scheme (r1.dropWhile jsWhitespace) = some (c :: cs))
    (d : Char) (ds : List Char) (hdrop : cs.dropWhile jsWhitespace = d :: ds) :
    authMatcher scheme s = some ((d :: ds).dropWhile (fun y => !jsWhitespace y)) := by
  unfold authMatcher
  rw [h1, Option.some_bind, h3, Option.some_bind]
  simp only [hc, if_true, hdrop]

theorem bearer_match (x : Char) (hx : jsWhitespace x = false) (B : List Char) :
    ∃ r, authMatcher "bearer".data ("Authorization: Bearer ".data ++ x :: B) = some r := by
  have h1 : ciAfter "authorization:".data ("Authorization: Bearer ".data ++ x :: B)
      = some (" Bearer ".data ++ x :: B) := rfl
  have h3 : ciAfter "bearer".data ((" Bearer ".data ++ x :: B).dropWhile jsWhitespace)
      = some (' ' :: (x :: B)) := rfl
  have hdrop : (x :: B).dropWhile jsWhitespace = x :: B :=
    List.dropWhile_cons_of_neg (by simp [hx])
  exact ⟨_, authMatcher_intro "bearer".data _ _ ' ' (by decide) (x :: B) h1 h3 x B hdrop⟩

/-- C7 (counterexample): the input `password=abc abc` contains
`password=abc` with secret value `abc` (non-empty, free of whitespace,
quotes, commas and braces), yet the output of `redactSecrets` still
contains `abc`: only the matched span is replaced, and a copy of the value
elsewhere in the string survives. -/
theorem redactSecrets_value_counterexample :
    "password=abc abc".data
      = [] ++ ("password".data ++ '=' :: ("abc".data ++ " abc".data)) ∧
    (∀ c ∈ "abc".data, valueChar c = true) ∧ "abc".data ≠ [] ∧
    redactSecrets "password=abc abc" = "[REDACTED] abc" ∧
    (∃ A B, (redactSecrets "password=abc abc").data = A ++ ("abc".data ++ B)) := by
  refine ⟨by decide, by decide, by decide, by decide, "[REDACTED] ".data, [], by decide⟩

/-- C7 (amended): for every input containing `password=`, `token=`,
`api_key=` or `secret=`, or `Authorization: Bearer ` followed by a
non-whitespace character, the output of `redactSecrets` contains the marker
`[REDACTED]`; moreover the output never contains any of those five key
shapes, so the key together with its immediately following matched value
run is gone.  (The value itself can survive as a copy elsewhere in the
string, as the counterexample shows.) -/
theorem redactSecrets_amended (s : String) :
    ((∃ kw ∈ (["password".data, "token".data, "api_key".data, "secret".data] :
        List (List Char)), ∃ A B, s.data = A ++ (kw ++ '=' :: B)) →
      ∃ A B, (redactSecrets s).data = A ++ (MARKER ++ B)) ∧
    ((∃ A x B, jsWhitespace x = false ∧
        s.data = A ++ ("Authorization: Bearer ".data ++ x :: B)) →
      ∃ A B, (redactSecrets s).data = A ++ (MARKER ++ B)) ∧
    (∀ kw ∈ (["password".data, "token".data, "api_key".data, "secret".data] :
        List (List Char)), ¬∃ A B, (redactSecrets s).data = A ++ (kw ++ '=' :: B)) ∧
    (¬∃ A x B, jsWhitespace x = false ∧
      (redactSecrets s).data = A ++ ("Authorization: Bearer ".data ++ x :: B)) := by
  have hout : (redactSecrets s).data = redactAll s.data := by
    rw [redactSecrets_eq_redactAll, string_mk_data]
  refine ⟨?_, ?_, ?_, ?_⟩
  · rintro ⟨kw, hkw, A, B, hs⟩
    rw [hout]
    apply marker_redactAll
    simp only [List.mem_cons, List.not_mem_nil, or_false] at hkw
    rcases hkw with rfl | rfl | rfl | rfl
    · obtain ⟨r, hr⟩ := kw_eq_match "password".data B
      exact ⟨kwMatcher "password".data, mem_pw, _, r, ⟨A, hs.symm⟩, hr⟩
    · obtain ⟨r, hr⟩ := kw_eq_match "token".data B
      exact ⟨kwMatcher "token".data, mem_tk, _, r, ⟨A, hs.symm⟩, hr⟩
    · obtain ⟨r, hr⟩ := api_eq_match B
      exact ⟨apiKeyMatcher, mem_ak, _, r, ⟨A, hs.symm⟩, hr⟩
    · obtain ⟨r, hr⟩ := kw_eq_match "secret".data B
      exact ⟨kwMatcher "secret".data, mem_sc, _, r, ⟨A, hs.symm⟩, hr⟩
  · rintro ⟨A, x, B, hx, hs⟩
    rw [hout]
    apply marker_redactAll
    obtain ⟨r, hr⟩ := bearer_match x hx B
    exact ⟨authMatcher "bearer".data, mem_br, _, r, ⟨A, hs.symm⟩, hr⟩
  · intro kw hkw
    rintro ⟨A, B, hs⟩
    rw [hout] at hs
    simp only [List.mem_cons, List.not_mem_nil, or_false] at hkw
    rcases hkw with rfl | rfl | rfl | rfl
    · obtain ⟨r, hr⟩ := kw_eq_match "password".data B
      rw [clean_all _ mem_pw s.data _ ⟨A, hs.symm⟩] at hr
      cases hr
    · obtain ⟨r, hr⟩ := kw_eq_match "token".data B
      rw [clean_all _ mem_tk s.data _ ⟨A, hs.symm⟩] at hr
      cases hr
    · obtain ⟨r, hr⟩ := api_eq_match B
      rw [clean_all _ mem_ak s.data _ ⟨A, hs.symm⟩] at hr
      cases hr
    · obtain ⟨r, hr⟩ := kw_eq_match "secret".data B
      rw [clean_all _ mem_sc s.data _ ⟨A, hs.symm⟩] at hr
      cases hr
  · rintro ⟨A, x, B, hx, hs⟩
    rw [hout] at hs
    obtain ⟨r, hr⟩ := bearer_match x hx B
    rw [clean_all _ mem_br s.data _ ⟨A, hs.symm⟩] at hr
    cases hr

/-- Witness for the amended C7 at a concrete input: `password=hunter2`
yields an output containing the marker and no further `password=`. -/
theorem redactSecrets_amended_witness :
    (∃ A B, (redactSecrets "password=hunter2").data = A ++ (MARKER ++ B)) ∧
    ¬∃ A B, (redactSecrets "password=hunter2").data
      = A ++ ("password".data ++ '=' :: B) :=
  ⟨(redactSecrets_amended "password=hunter2").1
      ⟨"password".data, by simp, [], "hunter2".data, by decide⟩,
    (redactSecrets_amended "password=hunter2").2.2.1 "password".data (by simp)⟩
